import Mathlib

/-!
Verification development for the retrieval core of the RAG repository:
Reciprocal Rank Fusion (`levels/shared/retrieval/bm25.py`), BM25 search
result assembly, the chunking strategies of `levels/03-chunking-strategies`,
the chunk-embedding cache, and the similarity helpers of
`levels/shared/retrieval/similarity.py`.

Numeric modelling: Python floats are modelled by `ℚ` (the code performs only
field operations on scores); machine reals entering through external
capabilities (`np.sqrt`, embeddings, tiktoken, BM25Okapi scores) are taken
as parameters of the corresponding definitions.
-/

set_option maxHeartbeats 1000000

namespace RAG

/-! ### Stable insertion sort, the model of Python `sorted` (which is stable)

`keep y x = true` means the already-placed element `y` (coming from a later
position of the original list) stays in front of the element `x` being
inserted (coming from an earlier position).  With `keep y x = (f x < f y)`
this is Python `sorted(key=f, reverse=True)`; with `keep y x = (f y < f x)`
it is ascending `sorted(key=f)`: in both cases elements with equal keys keep
their original relative order, exactly like Python's stable sort. -/

def stIns {α : Type} (keep : α → α → Bool) (x : α) : List α → List α
  | [] => [x]
  | y :: t => if keep y x then y :: stIns keep x t else x :: y :: t

def stSort {α : Type} (keep : α → α → Bool) (l : List α) : List α :=
  l.foldr (stIns keep) []

lemma mem_stIns {α : Type} (keep : α → α → Bool) (x z : α) :
    ∀ t : List α, z ∈ stIns keep x t ↔ z = x ∨ z ∈ t := by
  intro t
  induction t with
  | nil => simp [stIns]
  | cons y t ih =>
    by_cases h : keep y x <;> simp [stIns, h, ih] <;> tauto

lemma stIns_perm {α : Type} (keep : α → α → Bool) (x : α) :
    ∀ t : List α, List.Perm (stIns keep x t) (x :: t) := by
  intro t
  induction t with
  | nil => simp [stIns]
  | cons y t ih =>
    by_cases h : keep y x
    · simp only [stIns, h, if_true]
      exact (ih.cons y).trans (List.Perm.swap x y t)
    · simp [stIns, h]

lemma stSort_perm {α : Type} (keep : α → α → Bool) (l : List α) :
    List.Perm (stSort keep l) l := by
  induction l with
  | nil => simp [stSort]
  | cons x t ih =>
    have : stSort keep (x :: t) = stIns keep x (stSort keep t) := rfl
    rw [this]
    exact (stIns_perm keep x (stSort keep t)).trans (ih.cons x)

lemma pairwise_stIns {α : Type} (keep : α → α → Bool) (R : α → α → Prop)
    (h1 : ∀ a b, keep a b = true → R a b)
    (h2 : ∀ a b, keep a b = false → R b a)
    (htrans : ∀ a b c, R a b → R b c → R a c)
    (x : α) : ∀ t : List α, List.Pairwise R t → List.Pairwise R (stIns keep x t) := by
  intro t
  induction t with
  | nil => simp [stIns]
  | cons y t ih =>
    intro hp
    rcases List.pairwise_cons.mp hp with ⟨hy, ht⟩
    by_cases h : keep y x
    · simp only [stIns, h, if_true]
      refine List.pairwise_cons.mpr ⟨?_, ih ht⟩
      intro z hz
      rcases (mem_stIns keep x z t).mp hz with hzx | hzt
      · exact hzx ▸ h1 y x h
      · exact hy z hzt
    · simp only [stIns, h, if_false]
      refine List.pairwise_cons.mpr ⟨?_, hp⟩
      intro z hz
      rcases List.mem_cons.mp hz with hzy | hzt
      · exact hzy ▸ h2 y x (by simpa using h)
      · exact htrans x y z (h2 y x (by simpa using h)) (hy z hzt)

lemma pairwise_stSort {α : Type} (keep : α → α → Bool) (R : α → α → Prop)
    (h1 : ∀ a b, keep a b = true → R a b)
    (h2 : ∀ a b, keep a b = false → R b a)
    (htrans : ∀ a b c, R a b → R b c → R a c)
    (l : List α) : List.Pairwise R (stSort keep l) := by
  induction l with
  | nil => simp [stSort]
  | cons x t ih =>
    exact pairwise_stIns keep R h1 h2 htrans x (stSort keep t) ih

/-- A list on which no transposition is wanted is left unchanged by the sort:
this is the stability statement needed for already-ordered inputs. -/
lemma stSort_sorted_id {α : Type} (keep : α → α → Bool) :
    ∀ l : List α, List.Pairwise (fun a b => keep b a = false) l → stSort keep l = l := by
  intro l
  induction l with
  | nil => intro _; rfl
  | cons x t ih =>
    intro hp
    rcases List.pairwise_cons.mp hp with ⟨hx, ht⟩
    have hs : stSort keep (x :: t) = stIns keep x (stSort keep t) := rfl
    rw [hs, ih ht]
    cases t with
    | nil => rfl
    | cons y t2 => simp [stIns, hx y (by simp)]

/-! ### Reciprocal Rank Fusion — `reciprocal_rank_fusion` in
`levels/shared/retrieval/bm25.py` (the same accumulation loop appears as
`HybridRetriever._reciprocal_rank_fusion` in
`levels/02-hybrid-search/utils/hybrid_retriever.py`).

The Python `fused_scores` dict is modelled as an insertion-ordered
association list: assigning to an existing key updates it in place,
assigning to a fresh key appends it — exactly CPython `dict` semantics,
which matter because the final `sorted(..., reverse=True)` is stable. -/

/-- `fused_scores[doc_id] = fused_scores.get(doc_id, 0.0) + v` on an
insertion-ordered dict. -/
def updAdd : List (String × ℚ) → String → ℚ → List (String × ℚ)
  | [], did, v => [(did, v)]
  | (a, b) :: t, did, v =>
    if a = did then (a, b + v) :: t else (a, b) :: updAdd t did v

/-- The loop `for rank, (doc_id, _) in enumerate(results, start=1):
fused_scores[doc_id] += w / (k + rank)`. -/
def addRanked (w k : ℚ) : List (String × ℚ) → ℕ → List (String × ℚ) → List (String × ℚ)
  | [], _, m => m
  | (did, _) :: t, r, m => addRanked w k t (r + 1) (updAdd m did (w / (k + (r : ℚ))))

/-- Python `sorted(fused_scores.items(), key=lambda x: x[1], reverse=True)`:
stable descending sort on the score component. -/
def pySortDesc (l : List (String × ℚ)) : List (String × ℚ) :=
  stSort (fun y x => decide (x.2 < y.2)) l

/-- `reciprocal_rank_fusion(vector_results, bm25_results, alpha, k)` from
`levels/shared/retrieval/bm25.py` lines 95-133. -/
def reciprocal_rank_fusion (vector_results bm25_results : List (String × ℚ))
    (alpha k : ℚ) : List (String × ℚ) :=
  pySortDesc (addRanked (1 - alpha) k bm25_results 1
    (addRanked alpha k vector_results 1 []))

/-- The keys of an association list, in order. -/
def keysOf (l : List (String × ℚ)) : List String := l.map Prod.fst

/-- The score a result list assigns to a document id, `0` for an absent id. -/
def scoreOf (l : List (String × ℚ)) (did : String) : ℚ :=
  match l.find? (fun p => decide (p.1 = did)) with
  | some p => p.2
  | none => 0

/-- 0-based position of an id in a key list. -/
def rankOf? (did : String) : List String → Option ℕ
  | [] => none
  | a :: t => if a = did then some 0 else (rankOf? did t).map (fun i => i + 1)

/-- The contribution `w / (k + r)` of one ranked list to a document's fused
score, where `r` is the document's 1-based rank; `0` if the id is absent. -/
def rankContrib (w k : ℚ) (l : List (String × ℚ)) (did : String) : ℚ :=
  match rankOf? did (keysOf l) with
  | some i => w / (k + ((i : ℚ) + 1))
  | none => 0

/-- Accumulated contribution of a ranked list processed from rank `r` on,
counting every occurrence of the id (faithful to the accumulation loop). -/
def contribFrom (w k : ℚ) : ℕ → List (String × ℚ) → String → ℚ
  | _, [], _ => 0
  | r, (a, _) :: t, did =>
      (if a = did then w / (k + (r : ℚ)) else 0) + contribFrom w k (r + 1) t did

lemma scoreOf_nil (did : String) : scoreOf [] did = 0 := rfl

lemma scoreOf_cons (a : String) (b : ℚ) (t : List (String × ℚ)) (did : String) :
    scoreOf ((a, b) :: t) did = if a = did then b else scoreOf t did := by
  by_cases h : a = did <;> simp [scoreOf, List.find?, h]

lemma scoreOf_updAdd (m : List (String × ℚ)) (a did : String) (v : ℚ) :
    scoreOf (updAdd m a v) did = scoreOf m did + (if a = did then v else 0) := by
  induction m with
  | nil =>
    by_cases h : a = did <;> simp [updAdd, scoreOf_cons, scoreOf_nil, h]
  | cons p t ih =>
    obtain ⟨b, c⟩ := p
    by_cases hba : b = a
    · subst hba
      simp only [updAdd, if_pos rfl]
      by_cases h : b = did <;> simp [scoreOf_cons, h] <;> ring
    · simp only [updAdd, if_neg hba]
      by_cases h : b = did
      · subst h
        have had : ¬ b = a := hba
        simp [scoreOf_cons, if_pos rfl, fun hh : b = a => hba hh]
        intro had2
        exact absurd had2.symm hba
      · simp [scoreOf_cons, h, ih]

lemma scoreOf_addRanked (w k : ℚ) (did : String) :
    ∀ (l : List (String × ℚ)) (r : ℕ) (m : List (String × ℚ)),
      scoreOf (addRanked w k l r m) did = scoreOf m did + contribFrom w k r l did := by
  intro l
  induction l with
  | nil => intro r m; simp [addRanked, contribFrom]
  | cons p t ih =>
    intro r m
    obtain ⟨a, s⟩ := p
    simp only [addRanked, contribFrom]
    rw [ih (r + 1) (updAdd m a (w / (k + (r : ℚ)))), scoreOf_updAdd]
    ring

lemma keysOf_updAdd (m : List (String × ℚ)) (a : String) (v : ℚ) :
    keysOf (updAdd m a v) = if a ∈ keysOf m then keysOf m else keysOf m ++ [a] := by
  induction m with
  | nil => simp [updAdd, keysOf]
  | cons p t ih =>
    obtain ⟨b, c⟩ := p
    by_cases hba : b = a
    · subst hba
      simp [updAdd, keysOf]
    · simp only [updAdd, if_neg hba, keysOf, List.map_cons] at ih ⊢
      rw [ih]
      by_cases ha : a ∈ List.map Prod.fst t
      · rw [if_pos ha, if_pos (by simp [ha])]
      · have hnotc : a ∉ b :: List.map Prod.fst t := by
          simp only [List.mem_cons]
          rintro (h | h)
          · exact hba h.symm
          · exact ha h
        rw [if_neg ha, if_neg hnotc, List.cons_append]

lemma nodup_keys_updAdd (m : List (String × ℚ)) (a : String) (v : ℚ)
    (h : (keysOf m).Nodup) : (keysOf (updAdd m a v)).Nodup := by
  rw [keysOf_updAdd]
  by_cases ha : a ∈ keysOf m
  · simpa [ha] using h
  · simp only [ha, if_false]
    refine List.Nodup.append h (by simp) ?_
    intro x hx hxa
    simp only [List.mem_singleton] at hxa
    subst hxa
    exact ha hx

lemma nodup_keys_addRanked (w k : ℚ) :
    ∀ (l : List (String × ℚ)) (r : ℕ) (m : List (String × ℚ)),
      (keysOf m).Nodup → (keysOf (addRanked w k l r m)).Nodup := by
  intro l
  induction l with
  | nil => intro r m h; simpa [addRanked] using h
  | cons p t ih =>
    intro r m h
    obtain ⟨a, s⟩ := p
    exact ih (r + 1) _ (nodup_keys_updAdd m a _ h)

/-- Looking up a key in a permuted association list with nodup keys gives the
same result. -/
lemma scoreOf_perm {l1 l2 : List (String × ℚ)} (hp : List.Perm l1 l2)
    (hn : (keysOf l1).Nodup) (did : String) : scoreOf l1 did = scoreOf l2 did := by
  induction hp with
  | nil => rfl
  | cons x l ih =>
    obtain ⟨a, b⟩ := x
    rw [scoreOf_cons, scoreOf_cons, ih (by simpa [keysOf] using hn.of_cons)]
  | swap x y l =>
    obtain ⟨a, b⟩ := x
    obtain ⟨c, d⟩ := y
    have hn2 : (c :: a :: List.map Prod.fst l).Nodup := by
      simpa only [keysOf, List.map_cons] using hn
    have hac : a ≠ c := fun h => (List.nodup_cons.mp hn2).1 (by simp [h])
    rw [scoreOf_cons, scoreOf_cons, scoreOf_cons, scoreOf_cons]
    by_cases hc : c = did
    · subst hc
      simp [hac]
    · simp [hc]
  | trans h12 h23 ih12 ih23 =>
    rename_i l1 l2 l3
    have hn2 : (keysOf l2).Nodup := by
      have : List.Perm (keysOf l1) (keysOf l2) := h12.map Prod.fst
      exact this.nodup_iff.mp hn
    rw [ih12 hn, ih23 hn2]

lemma contribFrom_of_not_mem (w k : ℚ) (did : String) :
    ∀ (l : List (String × ℚ)) (r : ℕ), did ∉ keysOf l → contribFrom w k r l did = 0 := by
  intro l
  induction l with
  | nil => intro r _; rfl
  | cons p t ih =>
    intro r hmem
    obtain ⟨a, s⟩ := p
    simp only [keysOf, List.map_cons, List.mem_cons] at hmem
    push_neg at hmem
    simp only [contribFrom, if_neg (fun h : a = did => hmem.1 h.symm)]
    rw [ih (r + 1) (by simpa [keysOf] using hmem.2)]
    ring

/-- On a list with nodup keys the accumulated contribution is the claimed
reciprocal-rank formula. -/
lemma contribFrom_nodup (w k : ℚ) (did : String) :
    ∀ (l : List (String × ℚ)) (r : ℕ), (keysOf l).Nodup →
      contribFrom w k r l did =
        (match rankOf? did (keysOf l) with
          | some i => w / (k + ((r + i : ℕ) : ℚ))
          | none => 0) := by
  intro l
  induction l with
  | nil => intro r _; rfl
  | cons p t ih =>
    intro r hn
    obtain ⟨a, s⟩ := p
    have hkeys : keysOf ((a, s) :: t) = a :: keysOf t := rfl
    rw [hkeys] at hn ⊢
    by_cases h : a = did
    · subst h
      have hnot : a ∉ keysOf t := (List.nodup_cons.mp hn).1
      simp only [contribFrom, rankOf?, if_pos rfl]
      rw [contribFrom_of_not_mem w k a t (r + 1) hnot]
      norm_num
    · simp only [contribFrom, rankOf?, if_neg h]
      rw [ih (r + 1) (List.nodup_cons.mp hn).2]
      rcases hro : rankOf? did (keysOf t) with _ | i
      · simp
      · have heq : (r + 1) + i = r + (i + 1) := by omega
        simp [heq]

lemma contribFrom_one (w k : ℚ) (did : String) (l : List (String × ℚ))
    (hn : (keysOf l).Nodup) : contribFrom w k 1 l did = rankContrib w k l did := by
  rw [contribFrom_nodup w k did l 1 hn]
  unfold rankContrib
  rcases rankOf? did (keysOf l) with _ | i
  · rfl
  · show w / (k + ((1 + i : ℕ) : ℚ)) = w / (k + ((i : ℚ) + 1))
    push_cast
    ring_nf

/-- Claim C1: for every pair of ranked lists, every alpha and every
(nonnegative) k, `reciprocal_rank_fusion` assigns each document id the fused
score `alpha/(k+r_v) + (1-alpha)/(k+r_b)`, `r_v` and `r_b` being its 1-based
ranks in the vector and BM25 lists (an absent id contributing 0 from that
list); in particular for `vector=[("x",.9),("y",.5)]`,
`bm25=[("y",10),("x",2)]`, `alpha=0.5`, `k=60` the fused score of both `x`
and `y` is `0.5/61 + 0.5/62`. -/
theorem rrf_score_formula :
    (∀ (vec bm : List (String × ℚ)) (alpha k : ℚ), 0 ≤ k →
      (keysOf vec).Nodup → (keysOf bm).Nodup → ∀ did : String,
        scoreOf (reciprocal_rank_fusion vec bm alpha k) did =
          rankContrib alpha k vec did + rankContrib (1 - alpha) k bm did)
    ∧ scoreOf (reciprocal_rank_fusion
        [("x", 9/10), ("y", 1/2)] [("y", 10), ("x", 2)] (1/2) 60) "x"
        = 1/2/61 + 1/2/62
    ∧ scoreOf (reciprocal_rank_fusion
        [("x", 9/10), ("y", 1/2)] [("y", 10), ("x", 2)] (1/2) 60) "y"
        = 1/2/61 + 1/2/62 := by
  refine ⟨?_, ?_, ?_⟩
  case refine_2 =>
    norm_num [reciprocal_rank_fusion, pySortDesc, addRanked, updAdd, stSort, stIns]
    simp [scoreOf, List.find?]
  case refine_3 =>
    norm_num [reciprocal_rank_fusion, pySortDesc, addRanked, updAdd, stSort, stIns]
    simp [scoreOf, List.find?]
  intro vec bm alpha k hk hv hb did
  have hd : (keysOf (addRanked (1 - alpha) k bm 1 (addRanked alpha k vec 1 []))).Nodup :=
    nodup_keys_addRanked _ _ bm 1 _
      (nodup_keys_addRanked _ _ vec 1 [] (by simp [keysOf]))
  have hperm := stSort_perm (fun y x : String × ℚ => decide (x.2 < y.2))
    (addRanked (1 - alpha) k bm 1 (addRanked alpha k vec 1 []))
  have hn1 : (keysOf (pySortDesc
      (addRanked (1 - alpha) k bm 1 (addRanked alpha k vec 1 [])))).Nodup :=
    ((hperm.map Prod.fst).nodup_iff).mpr hd
  unfold reciprocal_rank_fusion pySortDesc
  unfold pySortDesc at hn1
  rw [scoreOf_perm hperm hn1 did, scoreOf_addRanked, scoreOf_addRanked, scoreOf_nil,
    contribFrom_one alpha k did vec hv, contribFrom_one (1 - alpha) k did bm hb]
  ring

/-- Witness for `rrf_score_formula` at a concrete input. -/
theorem rrf_score_formula_witness :
    scoreOf (reciprocal_rank_fusion [("a", (1 : ℚ))] [("b", (2 : ℚ))] (1/2) 60) "a"
      = rankContrib (1/2) 60 [("a", (1 : ℚ))] "a"
        + rankContrib (1 - 1/2) 60 [("b", (2 : ℚ))] "a" :=
  rrf_score_formula.1 [("a", 1)] [("b", 2)] (1/2) 60 (by norm_num) (by decide) (by decide) "a"

/-! ### The fused dict at the alpha boundaries (claim C6) -/

/-- The entries a ranked list inserts into an empty dict: id `i` (1-based rank
`r + i`) paired with `w / (k + rank)`. -/
def rankedList (w k : ℚ) : List (String × ℚ) → ℕ → List (String × ℚ)
  | [], _ => []
  | (did, _) :: t, r => (did, w / (k + (r : ℚ))) :: rankedList w k t (r + 1)

/-- First occurrences of keys of `l` that are not in `ks`, in order. -/
def newKeys : List (String × ℚ) → List String → List String
  | [], _ => []
  | (did, _) :: t, ks =>
    if did ∈ ks then newKeys t ks else did :: newKeys t (ks ++ [did])

lemma keysOf_append (l1 l2 : List (String × ℚ)) :
    keysOf (l1 ++ l2) = keysOf l1 ++ keysOf l2 := by
  simp [keysOf]

lemma keysOf_rankedList (w k : ℚ) :
    ∀ (l : List (String × ℚ)) (r : ℕ), keysOf (rankedList w k l r) = keysOf l := by
  intro l
  induction l with
  | nil => intro r; rfl
  | cons p t ih =>
    intro r
    obtain ⟨a, s⟩ := p
    show a :: keysOf (rankedList w k t (r + 1)) = a :: keysOf t
    rw [ih]

lemma updAdd_not_mem (a : String) (v : ℚ) :
    ∀ m : List (String × ℚ), a ∉ keysOf m → updAdd m a v = m ++ [(a, v)] := by
  intro m
  induction m with
  | nil => intro _; rfl
  | cons p t ih =>
    intro h
    obtain ⟨b, c⟩ := p
    have hkeys : keysOf ((b, c) :: t) = b :: keysOf t := rfl
    rw [hkeys] at h
    simp only [List.mem_cons] at h
    push_neg at h
    simp only [updAdd, if_neg (fun hh : b = a => h.1 hh.symm), List.cons_append]
    rw [ih h.2]

lemma updAdd_zero (a : String) :
    ∀ m : List (String × ℚ), updAdd m a 0 = if a ∈ keysOf m then m else m ++ [(a, 0)] := by
  intro m
  induction m with
  | nil => rfl
  | cons p t ih =>
    obtain ⟨b, c⟩ := p
    have hkeys : keysOf ((b, c) :: t) = b :: keysOf t := rfl
    rw [hkeys]
    by_cases hba : b = a
    · subst hba
      simp [updAdd]
    · simp only [updAdd, if_neg hba, ih, List.mem_cons]
      by_cases ha : a ∈ keysOf t
      · rw [if_pos ha, if_pos (Or.inr ha)]
      · rw [if_neg ha, if_neg ?_, List.cons_append]
        rintro (h | h)
        · exact hba h.symm
        · exact ha h

/-- With weight `0` every division `0 / (k + r)` is `0`, so the loop only
appends fresh ids with score `0` and leaves existing entries unchanged. -/
lemma addRanked_zero (k : ℚ) :
    ∀ (l : List (String × ℚ)) (r : ℕ) (m : List (String × ℚ)),
      addRanked 0 k l r m = m ++ (newKeys l (keysOf m)).map (fun a => (a, (0 : ℚ))) := by
  intro l
  induction l with
  | nil => intro r m; simp [addRanked, newKeys]
  | cons p t ih =>
    intro r m
    obtain ⟨a, s⟩ := p
    simp only [addRanked, newKeys, zero_div]
    rw [updAdd_zero a m]
    by_cases ha : a ∈ keysOf m
    · rw [if_pos ha, if_pos ha, ih]
    · rw [if_neg ha, if_neg ha, ih]
      rw [keysOf_append]
      have : keysOf [(a, (0:ℚ))] = [a] := rfl
      rw [this, List.map_cons, List.append_assoc]
      rfl

/-- Adding a ranked list whose keys are fresh for the dict appends exactly the
reciprocal-rank entries. -/
lemma addRanked_disjoint (w k : ℚ) :
    ∀ (l : List (String × ℚ)) (r : ℕ) (m : List (String × ℚ)),
      (keysOf l).Nodup → (∀ a ∈ keysOf l, a ∉ keysOf m) →
      addRanked w k l r m = m ++ rankedList w k l r := by
  intro l
  induction l with
  | nil => intro r m _ _; simp [addRanked, rankedList]
  | cons p t ih =>
    intro r m hn hdisj
    obtain ⟨a, s⟩ := p
    have hkeys : keysOf ((a, s) :: t) = a :: keysOf t := rfl
    rw [hkeys] at hn hdisj
    simp only [addRanked, rankedList]
    rw [updAdd_not_mem a _ m (hdisj a (by simp))]
    rw [ih (r + 1) _ (List.nodup_cons.mp hn).2 ?_]
    · rw [List.append_assoc]
      rfl
    · intro x hx
      rw [keysOf_append]
      simp only [List.mem_append]
      push_neg
      refine ⟨hdisj x (by simp [hx]), ?_⟩
      have : keysOf [(a, w / (k + (r : ℚ)))] = [a] := rfl
      rw [this]
      simp only [List.mem_singleton]
      intro hxa
      exact absurd (hxa ▸ hx) (List.nodup_cons.mp hn).1

lemma updAdd_mem_split (a : String) (v : ℚ) :
    ∀ m : List (String × ℚ), a ∈ keysOf m →
      ∃ m1 b m2, m = m1 ++ (a, b) :: m2 ∧ a ∉ keysOf m1 ∧
        updAdd m a v = m1 ++ (a, b + v) :: m2 := by
  intro m
  induction m with
  | nil => intro h; simp [keysOf] at h
  | cons p t ih =>
    intro h
    obtain ⟨c, d⟩ := p
    by_cases hca : c = a
    · subst hca
      exact ⟨[], d, t, rfl, by simp [keysOf], by simp [updAdd]⟩
    · have h2 : a ∈ keysOf t := by
        have hkeys : keysOf ((c, d) :: t) = c :: keysOf t := rfl
        rw [hkeys] at h
        rcases List.mem_cons.mp h with h | h
        · exact absurd h.symm hca
        · exact h
      obtain ⟨m1, b, m2, hm, hnm, hupd⟩ := ih h2
      refine ⟨(c, d) :: m1, b, m2, by rw [hm]; rfl, ?_, ?_⟩
      · have hkeys : keysOf ((c, d) :: m1) = c :: keysOf m1 := rfl
        rw [hkeys]
        simp only [List.mem_cons]
        rintro (hh | hh)
        · exact hca hh.symm
        · exact hnm hh
      · simp only [updAdd, if_neg hca]
        rw [hupd]
        rfl

lemma filter_keys_congr (a : String) (ks : List String) (m : List (String × ℚ))
    (h : ∀ p ∈ m, p.1 ≠ a) :
    m.filter (fun p => decide (p.1 ∉ a :: ks)) = m.filter (fun p => decide (p.1 ∉ ks)) := by
  apply List.filter_congr
  intro p hp
  simp [decide_eq_decide, List.mem_cons, h p hp]

/-- The core permutation fact for the `alpha = 0` boundary: accumulating a
nodup ranked list into a dict whose entries are zero-scored (or have keys the
list never touches) yields, up to permutation, the reciprocal-rank entries of
the list together with the untouched dict entries. -/
lemma addRanked_perm_zeros (w k : ℚ) :
    ∀ (l : List (String × ℚ)) (r : ℕ) (m : List (String × ℚ)),
      (keysOf l).Nodup → (keysOf m).Nodup →
      (∀ p ∈ m, p.2 = 0 ∨ p.1 ∉ keysOf l) →
      List.Perm (addRanked w k l r m)
        (rankedList w k l r ++ m.filter (fun p => decide (p.1 ∉ keysOf l))) := by
  intro l
  induction l with
  | nil =>
    intro r m _ _ _
    simp [addRanked, rankedList, keysOf]
  | cons q t ih =>
    intro r m hn hm hzero
    obtain ⟨a, s⟩ := q
    have hkeys : keysOf ((a, s) :: t) = a :: keysOf t := rfl
    rw [hkeys] at hn hzero ⊢
    have hant : a ∉ keysOf t := (List.nodup_cons.mp hn).1
    have hnt : (keysOf t).Nodup := (List.nodup_cons.mp hn).2
    simp only [addRanked, rankedList]
    set v := w / (k + (r : ℚ)) with hv
    by_cases ham : a ∈ keysOf m
    · obtain ⟨m1, b, m2, hmeq, hnm1, hupd⟩ := updAdd_mem_split a v m ham
      have hb : b = 0 := by
        have hmem : (a, b) ∈ m := by rw [hmeq]; simp
        rcases hzero (a, b) hmem with h | h
        · exact h
        · exact absurd (by simp) h
      have hkm : keysOf m = keysOf m1 ++ a :: keysOf m2 := by
        rw [hmeq, keysOf_append]
        rfl
      have ham2 : a ∉ keysOf m2 := by
        have := hkm ▸ hm
        exact (List.nodup_cons.mp this.of_append_right).1
      have hihm : (keysOf (m1 ++ (a, b + v) :: m2)).Nodup := by
        rw [keysOf_append]
        have : keysOf ((a, b + v) :: m2) = a :: keysOf m2 := rfl
        rw [this, ← hkm]
        exact hm
      have hihz : ∀ p ∈ m1 ++ (a, b + v) :: m2, p.2 = 0 ∨ p.1 ∉ keysOf t := by
        intro p hp
        rcases List.mem_append.mp hp with hp1 | hp2
        · rcases hzero p (by rw [hmeq]; exact List.mem_append.mpr (Or.inl hp1)) with h | h
          · exact Or.inl h
          · exact Or.inr (fun hh => h (List.mem_cons.mpr (Or.inr hh)))
        · rcases List.mem_cons.mp hp2 with hp3 | hp3
          · subst hp3
            exact Or.inr hant
          · have hpm : p ∈ m := by
              rw [hmeq]
              exact List.mem_append.mpr (Or.inr (List.mem_cons.mpr (Or.inr hp3)))
            rcases hzero p hpm with h | h
            · exact Or.inl h
            · exact Or.inr (fun hh => h (List.mem_cons.mpr (Or.inr hh)))
      rw [hupd]
      refine (ih (r + 1) _ hnt hihm hihz).trans ?_
      have hf1 : ∀ p ∈ m1, p.1 ≠ a := by
        intro p hp hpa
        exact hnm1 (hpa ▸ (List.mem_map.mpr ⟨p, hp, rfl⟩))
      have hf2 : ∀ p ∈ m2, p.1 ≠ a := by
        intro p hp hpa
        exact ham2 (hpa ▸ (List.mem_map.mpr ⟨p, hp, rfl⟩))
      have hfm1 : m1.filter (fun p => decide (p.1 ∉ a :: keysOf t))
          = m1.filter (fun p => decide (p.1 ∉ keysOf t)) := filter_keys_congr a _ m1 hf1
      have hfm2 : m2.filter (fun p => decide (p.1 ∉ a :: keysOf t))
          = m2.filter (fun p => decide (p.1 ∉ keysOf t)) := filter_keys_congr a _ m2 hf2
      rw [hmeq]
      rw [List.filter_append, List.filter_append, List.filter_cons, List.filter_cons]
      have hdrop : (decide (a ∉ a :: keysOf t)) = false := by simp
      have hkeep : (decide (a ∉ keysOf t)) = true := by simpa using hant
      rw [hdrop, hkeep]
      simp only [if_true, if_false, cond_true, cond_false]
      rw [hfm1, hfm2, hb, zero_add]
      have hmid := @List.perm_middle (String × ℚ) (a, v)
        (rankedList w k t (r + 1) ++ m1.filter (fun p => decide (p.1 ∉ keysOf t)))
        (m2.filter (fun p => decide (p.1 ∉ keysOf t)))
      simpa only [List.append_assoc] using hmid
    · rw [updAdd_not_mem a v m ham]
      have hihm : (keysOf (m ++ [(a, v)])).Nodup := by
        rw [keysOf_append]
        refine List.Nodup.append hm (by simp [keysOf]) ?_
        intro x hx hxa
        have : keysOf [(a, v)] = [a] := rfl
        rw [this] at hxa
        simp only [List.mem_singleton] at hxa
        subst hxa
        exact ham hx
      have hihz : ∀ p ∈ m ++ [(a, v)], p.2 = 0 ∨ p.1 ∉ keysOf t := by
        intro p hp
        rcases List.mem_append.mp hp with hp1 | hp2
        · rcases hzero p hp1 with h | h
          · exact Or.inl h
          · exact Or.inr (fun hh => h (List.mem_cons.mpr (Or.inr hh)))
        · simp only [List.mem_singleton] at hp2
          subst hp2
          exact Or.inr hant
      refine (ih (r + 1) _ hnt hihm hihz).trans ?_
      have hfm : m.filter (fun p => decide (p.1 ∉ a :: keysOf t))
          = m.filter (fun p => decide (p.1 ∉ keysOf t)) := by
        refine filter_keys_congr a _ m ?_
        intro p hp hpa
        exact ham (hpa ▸ (List.mem_map.mpr ⟨p, hp, rfl⟩))
      rw [List.filter_append, List.filter_cons]
      have hkeep : (decide (a ∉ keysOf t)) = true := by simpa using hant
      rw [hkeep]
      simp only [cond_true, List.filter_nil]
      rw [hfm]
      have hsing := List.perm_append_singleton (a, v)
        (rankedList w k t (r + 1) ++ m.filter (fun p => decide (p.1 ∉ keysOf t)))
      simpa only [List.append_assoc] using hsing

/-- A weakly-descending permutation of a strictly-descending list is that
list: sorted output order is forced when all scores are distinct. -/
lemma eq_of_perm_sorted :
    ∀ (tgt f : List (String × ℚ)), List.Perm f tgt →
      List.Pairwise (fun a b => b.2 ≤ a.2) f →
      List.Pairwise (fun a b => b.2 < a.2) tgt → f = tgt := by
  intro tgt
  induction tgt with
  | nil =>
    intro f hp _ _
    exact hp.eq_nil
  | cons t ts ih =>
    intro f hp hf ht
    cases f with
    | nil => exact absurd hp.symm.eq_nil (by simp)
    | cons h hs =>
      have hh_mem : h ∈ t :: ts := hp.mem_iff.mp (by simp)
      have ht_mem : t ∈ h :: hs := hp.mem_iff.mpr (by simp)
      by_cases hht : h = t
      · subst hht
        rw [ih hs (hp.cons_inv) (List.pairwise_cons.mp hf).2 (List.pairwise_cons.mp ht).2]
      · exfalso
        have h_in_ts : h ∈ ts := by
          rcases List.mem_cons.mp hh_mem with h1 | h1
          · exact absurd h1 hht
          · exact h1
        have t_in_hs : t ∈ hs := by
          rcases List.mem_cons.mp ht_mem with h1 | h1
          · exact absurd h1.symm hht
          · exact h1
        have hlt : h.2 < t.2 := (List.pairwise_cons.mp ht).1 h h_in_ts
        have hle : t.2 ≤ h.2 := (List.pairwise_cons.mp hf).1 t t_in_hs
        exact lt_irrefl h.2 (lt_of_lt_of_le hlt hle)

/-- The nonzero-score entries of the sorted fused dict, whenever the dict is
(up to permutation) a strictly-descending positive block plus zero entries,
are exactly that block. -/
lemma filter_pySortDesc_eq (d tgt z : List (String × ℚ))
    (hperm : List.Perm d (tgt ++ z)) (hz : ∀ p ∈ z, p.2 = 0)
    (htgt : List.Pairwise (fun a b => b.2 < a.2) tgt)
    (hpos : ∀ p ∈ tgt, 0 < p.2) :
    (pySortDesc d).filter (fun p => decide (p.2 ≠ 0)) = tgt := by
  have hsorted : List.Pairwise (fun a b : String × ℚ => b.2 ≤ a.2) (pySortDesc d) := by
    refine pairwise_stSort _ _ ?_ ?_ ?_ d
    · intro a b hab
      exact le_of_lt (of_decide_eq_true hab)
    · intro a b hab
      exact le_of_not_lt (of_decide_eq_false hab)
    · intro a b c h1 h2
      exact le_trans h2 h1
  have hpermf : List.Perm ((pySortDesc d).filter (fun p => decide (p.2 ≠ 0)))
      ((tgt ++ z).filter (fun p => decide (p.2 ≠ 0))) :=
    ((stSort_perm _ d).trans hperm).filter _
  have hfz : (tgt ++ z).filter (fun p => decide (p.2 ≠ 0)) = tgt := by
    rw [List.filter_append]
    have h1 : tgt.filter (fun p => decide (p.2 ≠ 0)) = tgt := by
      rw [List.filter_eq_self]
      intro p hp
      simpa using ne_of_gt (hpos p hp)
    have h2 : z.filter (fun p => decide (p.2 ≠ 0)) = [] := by
      rw [List.filter_eq_nil_iff]
      intro p hp
      simpa using hz p hp
    rw [h1, h2, List.append_nil]
  rw [hfz] at hpermf
  exact eq_of_perm_sorted tgt _ hpermf (hsorted.filter _) htgt

lemma rankedList_mem_val (w k : ℚ) :
    ∀ (l : List (String × ℚ)) (r : ℕ) (p : String × ℚ), p ∈ rankedList w k l r →
      ∃ j : ℕ, r ≤ j ∧ p.2 = w / (k + (j : ℚ)) := by
  intro l
  induction l with
  | nil => intro r p hp; simp [rankedList] at hp
  | cons q t ih =>
    intro r p hp
    obtain ⟨a, s⟩ := q
    rcases List.mem_cons.mp hp with h | h
    · exact ⟨r, le_refl r, by rw [h]⟩
    · obtain ⟨j, hj, hv⟩ := ih (r + 1) p h
      exact ⟨j, by omega, hv⟩

lemma rankedList_strict (w k : ℚ) (hw : 0 < w) (hk : 0 ≤ k) :
    ∀ (l : List (String × ℚ)) (r : ℕ), 1 ≤ r →
      List.Pairwise (fun a b : String × ℚ => b.2 < a.2) (rankedList w k l r) := by
  intro l
  induction l with
  | nil => intro r _; simp [rankedList]
  | cons q t ih =>
    intro r hr
    obtain ⟨a, s⟩ := q
    refine List.pairwise_cons.mpr ⟨?_, ih (r + 1) (by omega)⟩
    intro p hp
    obtain ⟨j, hj, hv⟩ := rankedList_mem_val w k t (r + 1) p hp
    show p.2 < w / (k + (r : ℚ))
    rw [hv]
    have hrpos : (0 : ℚ) < k + (r : ℚ) := by
      have : (1 : ℚ) ≤ (r : ℚ) := by exact_mod_cast hr
      linarith
    have hlt : (k : ℚ) + (r : ℚ) < k + (j : ℚ) := by
      have : (r : ℚ) < (j : ℚ) := by exact_mod_cast (by omega : r < j)
      linarith
    exact div_lt_div_of_pos_left hw hrpos hlt

lemma rankedList_pos (w k : ℚ) (hw : 0 < w) (hk : 0 ≤ k) :
    ∀ (l : List (String × ℚ)) (r : ℕ), 1 ≤ r →
      ∀ p ∈ rankedList w k l r, 0 < p.2 := by
  intro l r hr p hp
  obtain ⟨j, hj, hv⟩ := rankedList_mem_val w k l r p hp
  rw [hv]
  apply div_pos hw
  have : (1 : ℚ) ≤ (j : ℚ) := by exact_mod_cast (by omega : 1 ≤ j)
  linarith

lemma newKeys_fresh :
    ∀ (l : List (String × ℚ)) (ks : List String),
      (newKeys l ks).Nodup ∧ ∀ a ∈ newKeys l ks, a ∉ ks := by
  intro l
  induction l with
  | nil => intro ks; exact ⟨List.nodup_nil, by simp [newKeys]⟩
  | cons q t ih =>
    intro ks
    obtain ⟨a, s⟩ := q
    by_cases ha : a ∈ ks
    · simpa [newKeys, ha] using ih ks
    · simp only [newKeys, if_neg ha]
      obtain ⟨ihn, ihf⟩ := ih (ks ++ [a])
      refine ⟨List.nodup_cons.mpr ⟨?_, ihn⟩, ?_⟩
      · intro hmem
        exact ihf a hmem (by simp)
      · intro x hx
        rcases List.mem_cons.mp hx with h | h
        · exact h ▸ ha
        · intro hxk
          exact ihf x h (by simp [hxk])

lemma keysOf_map_zero (ks : List String) :
    keysOf (ks.map (fun a => (a, (0 : ℚ)))) = ks := by
  induction ks with
  | nil => rfl
  | cons a t ih =>
    show a :: keysOf (t.map (fun a => (a, (0 : ℚ)))) = a :: t
    rw [ih]

/-- Claim C6 counterexample: with `alpha = 1.0` the output of
`reciprocal_rank_fusion` is not exactly the vector ids — a BM25-only id is
kept with fused score `0` rather than omitted. -/
theorem rrf_zero_score_counterexample :
    (reciprocal_rank_fusion [("a", (1 : ℚ))] [("b", (1 : ℚ))] 1 60).map Prod.fst ≠ ["a"]
    ∧ ("b", (0 : ℚ)) ∈ reciprocal_rank_fusion [("a", (1 : ℚ))] [("b", (1 : ℚ))] 1 60 := by
  have hab : ("a" : String) = "b" ↔ False := by simp
  have hba : ("b" : String) = "a" ↔ False := by simp
  constructor
  · norm_num [reciprocal_rank_fusion, pySortDesc, addRanked, updAdd, stSort, stIns,
      hab, hba]
  · norm_num [reciprocal_rank_fusion, pySortDesc, addRanked, updAdd, stSort, stIns,
      hab, hba]

/-- Claim C6 (amended): with `alpha = 1.0` the ids carrying a nonzero fused
score are, in output order, exactly the vector input's ids in their original
rank order, and with `alpha = 0.0` exactly the BM25 input's ids; ids present
only in the other list are not omitted — they trail with fused score `0`
(shown by `rrf_zero_score_counterexample`). -/
theorem rrf_alpha_boundary_order :
    (∀ (vec bm : List (String × ℚ)) (k : ℚ), 0 ≤ k → (keysOf vec).Nodup →
      ((reciprocal_rank_fusion vec bm 1 k).filter (fun p => decide (p.2 ≠ 0))).map Prod.fst
        = keysOf vec)
    ∧ (∀ (vec bm : List (String × ℚ)) (k : ℚ), 0 ≤ k → (keysOf bm).Nodup →
      ((reciprocal_rank_fusion vec bm 0 k).filter (fun p => decide (p.2 ≠ 0))).map Prod.fst
        = keysOf bm) := by
  constructor
  · intro vec bm k hk hvec
    unfold reciprocal_rank_fusion
    have h10 : (1 : ℚ) - 1 = 0 := by norm_num
    rw [h10]
    have hd1 : addRanked 1 k vec 1 [] = rankedList 1 k vec 1 := by
      have := addRanked_disjoint 1 k vec 1 [] hvec (by intro a _; simp [keysOf])
      simpa using this
    rw [hd1, addRanked_zero k bm 1 (rankedList 1 k vec 1)]
    have hfilter := filter_pySortDesc_eq
      (rankedList 1 k vec 1 ++ (newKeys bm (keysOf (rankedList 1 k vec 1))).map
        (fun a => (a, (0 : ℚ))))
      (rankedList 1 k vec 1)
      ((newKeys bm (keysOf (rankedList 1 k vec 1))).map (fun a => (a, (0 : ℚ))))
      (List.Perm.refl _)
      (by intro p hp; rcases List.mem_map.mp hp with ⟨x, _, hx⟩; rw [← hx])
      (rankedList_strict 1 k one_pos hk vec 1 (le_refl 1))
      (rankedList_pos 1 k one_pos hk vec 1 (le_refl 1))
    rw [hfilter, ← keysOf_rankedList 1 k vec 1]
    rfl
  · intro vec bm k hk hbm
    unfold reciprocal_rank_fusion
    have h10 : (1 : ℚ) - 0 = 1 := by norm_num
    rw [h10]
    have hd0 : addRanked 0 k vec 1 [] = (newKeys vec []).map (fun a => (a, (0 : ℚ))) := by
      have := addRanked_zero k vec 1 []
      simpa [keysOf] using this
    rw [hd0]
    set z0 := (newKeys vec []).map (fun a => (a, (0 : ℚ))) with hz0
    have hz0keys : keysOf z0 = newKeys vec [] := keysOf_map_zero _
    have hz0nodup : (keysOf z0).Nodup := by
      rw [hz0keys]
      exact (newKeys_fresh vec []).1
    have hz0zero : ∀ p ∈ z0, p.2 = 0 ∨ p.1 ∉ keysOf bm := by
      intro p hp
      rcases List.mem_map.mp hp with ⟨x, _, hx⟩
      exact Or.inl (by rw [← hx])
    have hperm := addRanked_perm_zeros 1 k bm 1 z0 hbm hz0nodup hz0zero
    have hfilter := filter_pySortDesc_eq
      (addRanked 1 k bm 1 z0)
      (rankedList 1 k bm 1)
      (z0.filter (fun p => decide (p.1 ∉ keysOf bm)))
      hperm
      (by
        intro p hp
        have hpz : p ∈ z0 := List.mem_of_mem_filter hp
        rcases List.mem_map.mp hpz with ⟨x, _, hx⟩
        rw [← hx])
      (rankedList_strict 1 k one_pos hk bm 1 (le_refl 1))
      (rankedList_pos 1 k one_pos hk bm 1 (le_refl 1))
    rw [hfilter, ← keysOf_rankedList 1 k bm 1]
    rfl

/-- Witness for `rrf_alpha_boundary_order` at a concrete input. -/
theorem rrf_alpha_boundary_order_witness :
    ((reciprocal_rank_fusion [("a", (1 : ℚ))] [("b", (2 : ℚ))] 1 60).filter
        (fun p => decide (p.2 ≠ 0))).map Prod.fst = keysOf [("a", (1 : ℚ))] :=
  rrf_alpha_boundary_order.1 [("a", 1)] [("b", 2)] 60 (by norm_num) (by decide)

/-! ### BM25 search result assembly — `BM25Search.search` in
`levels/shared/retrieval/bm25.py` lines 50-84.

`BM25Okapi.get_scores` comes from the external `rank_bm25` package, so the
score vector is a parameter; what the repository's code does with it is
`np.argsort(scores)[::-1][:top_k]` followed by a guarded id/score lookup.
`np.argsort` is modelled as a stable ascending argsort.  NumPy's default
quicksort is documented as not stable and may permute equal keys arbitrarily
on longer arrays, so every claim-level theorem below draws only conclusions
that are invariant under the order argsort gives to tied keys (lengths,
memberships, score multisets, sortedness), or concerns arrays of two
elements, where NumPy's insertion-sort path keeps equal keys in position
exactly like the stable model. -/

/-- `np.argsort(scores)[::-1]`: ascending argsort, fully reversed (argsort
modelled as stable; see the section comment for how this choice is kept
honest). -/
def argsortDesc (scores : List ℚ) : List ℕ :=
  ((stSort (fun y x : ℕ × ℚ => decide (y.2 < x.2))
      ((List.range scores.length).zip scores)).map Prod.fst).reverse

/-- `BM25Search.search` after scoring: take the `top_k` first indices of the
reversed argsort, keep those inside the document list, and pair each
document id with its score. -/
def bm25Search (docs : List String) (scores : List ℚ) (topK : ℕ) :
    List (String × ℚ) :=
  ((argsortDesc scores).take topK).filterMap (fun i =>
    if i < docs.length then some (docs.getD i "", scores.getD i 0) else none)

/-- Modelled from the spec: `BM25Okapi.get_scores` (external `rank_bm25`
package, not part of this repository) scores each document with the BM25
Okapi formula, a sum over the query's terms of per-term relevance
contributions; the per-term contribution is abstracted as the parameter
`termScore`.  An empty query therefore yields an all-zero score vector. -/
def getScores (termScore : String → ℕ → ℚ) (query : List String) (n : ℕ) :
    List ℚ :=
  (List.range n).map (fun d => (query.map (fun t => termScore t d)).sum)

lemma pairwise_of_all {α : Type} {R : α → α → Prop} (h : ∀ a b, R a b) :
    ∀ l : List α, List.Pairwise R l := by
  intro l
  induction l with
  | nil => exact List.Pairwise.nil
  | cons a t ih => exact List.pairwise_cons.mpr ⟨fun b _ => h a b, ih⟩

lemma pairwise_filterMap_of {α β : Type} (f : α → Option β)
    {R : α → α → Prop} {S : β → β → Prop}
    (h : ∀ a b x y, R a b → f a = some x → f b = some y → S x y) :
    ∀ {l : List α}, List.Pairwise R l → List.Pairwise S (l.filterMap f) := by
  intro l
  induction l with
  | nil => intro _; simp
  | cons a t ih =>
    intro hp
    rcases List.pairwise_cons.mp hp with ⟨ha, ht⟩
    rw [List.filterMap_cons]
    rcases hfa : f a with _ | b
    · exact ih ht
    · refine List.pairwise_cons.mpr ⟨?_, ih ht⟩
      intro y hy
      rcases List.mem_filterMap.mp hy with ⟨c, hc, hfc⟩
      exact h a c b y (ha c hc) hfa hfc

lemma mem_zip_range_getD (scores : List ℚ) :
    ∀ p : ℕ × ℚ, p ∈ (List.range scores.length).zip scores →
      scores.getD p.1 0 = p.2 := by
  induction scores with
  | nil => intro p hp; simp at hp
  | cons x t ih =>
    intro p hp
    rw [List.length_cons, List.range_succ_eq_map, List.zip_cons_cons] at hp
    rcases List.mem_cons.mp hp with h | h
    · simp [h]
    · rw [List.zip_map_left] at h
      rcases List.mem_map.mp h with ⟨q, hq, hqp⟩
      have := ih q hq
      rw [← hqp]
      simpa using this

/-- Claim C2: for every document set, every score vector and every `top_k`,
`BM25Search.search` returns at most `top_k` results, every returned doc_id
belongs to the document set, and the returned scores are non-increasing. -/
theorem bm25_search_bounds (docs : List String) (scores : List ℚ) (topK : ℕ) :
    (bm25Search docs scores topK).length ≤ topK
    ∧ (∀ p ∈ bm25Search docs scores topK, p.1 ∈ docs)
    ∧ List.Pairwise (fun a b : String × ℚ => b.2 ≤ a.2)
        (bm25Search docs scores topK) := by
  refine ⟨?_, ?_, ?_⟩
  · calc (bm25Search docs scores topK).length
        ≤ ((argsortDesc scores).take topK).length := List.length_filterMap_le _ _
      _ ≤ topK := List.length_take_le _ _
  · intro p hp
    rcases List.mem_filterMap.mp hp with ⟨i, _, hfi⟩
    by_cases hi : i < docs.length
    · rw [if_pos hi] at hfi
      have hp1 : p.1 = docs.getD i "" := by
        have := congrArg (fun o => o.map Prod.fst) hfi
        simpa using this.symm
      rw [hp1, List.getD_eq_getElem docs "" hi]
      exact List.getElem_mem hi
    · rw [if_neg hi] at hfi
      exact absurd hfi (by simp)
  · have hsorted : List.Pairwise (fun a b : ℕ × ℚ => a.2 ≤ b.2)
        (stSort (fun y x : ℕ × ℚ => decide (y.2 < x.2))
          ((List.range scores.length).zip scores)) := by
      refine pairwise_stSort _ _ ?_ ?_ ?_ _
      · intro a b hab
        exact le_of_lt (of_decide_eq_true hab)
      · intro a b hab
        exact le_of_not_lt (of_decide_eq_false hab)
      · intro a b c h1 h2
        exact le_trans h1 h2
    have hmem : ∀ p ∈ stSort (fun y x : ℕ × ℚ => decide (y.2 < x.2))
        ((List.range scores.length).zip scores), scores.getD p.1 0 = p.2 := by
      intro p hp
      exact mem_zip_range_getD scores p ((stSort_perm _ _).mem_iff.mp hp)
    have hpairs : List.Pairwise (fun a b : ℕ × ℚ => scores.getD b.1 0 ≤ scores.getD a.1 0)
        ((stSort (fun y x : ℕ × ℚ => decide (y.2 < x.2))
          ((List.range scores.length).zip scores)).reverse) := by
      rw [List.pairwise_reverse]
      refine List.Pairwise.imp_of_mem ?_ hsorted
      intro a b ha hb hab
      rw [hmem a ha, hmem b hb]
      exact hab
    have hidx : List.Pairwise (fun i j : ℕ => scores.getD j 0 ≤ scores.getD i 0)
        ((argsortDesc scores).take topK) := by
      refine List.Pairwise.sublist (List.take_sublist _ _) ?_
      unfold argsortDesc
      rw [← List.map_reverse]
      exact (List.pairwise_map).mpr hpairs
    refine pairwise_filterMap_of _ ?_ hidx
    intro i j x y hij hfi hfj
    by_cases hi : i < docs.length
    · by_cases hj : j < docs.length
      · rw [if_pos hi] at hfi
        rw [if_pos hj] at hfj
        have hx : x.2 = scores.getD i 0 := by
          have := congrArg (fun o => o.map Prod.snd) hfi
          simpa using this.symm
        have hy : y.2 = scores.getD j 0 := by
          have := congrArg (fun o => o.map Prod.snd) hfj
          simpa using this.symm
        rw [hx, hy]
        exact hij
      · rw [if_neg hj] at hfj
        exact absurd hfj (by simp)
    · rw [if_neg hi] at hfi
      exact absurd hfi (by simp)

lemma zip_replicate_eq_map (c : ℚ) :
    ∀ l : List ℕ, l.zip (List.replicate l.length c) = l.map (fun i => (i, c)) := by
  intro l
  induction l with
  | nil => rfl
  | cons a t ih =>
    show (a, c) :: t.zip (List.replicate t.length c) = (a, c) :: t.map (fun i => (i, c))
    rw [ih]

lemma map_fst_pair (c : ℚ) :
    ∀ l : List ℕ, (l.map (fun i => (i, c))).map Prod.fst = l := by
  intro l
  induction l with
  | nil => rfl
  | cons a t ih =>
    show a :: (t.map (fun i => (i, c))).map Prod.fst = a :: t
    rw [ih]

lemma filterMap_eq_map_on {α β : Type} (f : α → Option β) (g : α → β) :
    ∀ l : List α, (∀ a ∈ l, f a = some (g a)) → l.filterMap f = l.map g := by
  intro l
  induction l with
  | nil => intro _; rfl
  | cons a t ih =>
    intro h
    simp only [List.filterMap_cons, h a (by simp), List.map_cons]
    rw [ih (fun x hx => h x (by simp [hx]))]

lemma range_map_getD {α : Type} (l : List α) (d : α) :
    (List.range l.length).map (fun i => l.getD i d) = l := by
  apply List.ext_getElem
  · simp
  · intro i h1 h2
    simp [List.getD, List.getElem?_eq_getElem, h2]

/-- Claim C3 counterexample: an empty query scores every document `0`, and
for this two-document corpus the code returns the documents in REVERSED
indexing order — `np.argsort` on two equal keys leaves the indices in place
(its insertion-sort path, matching the stable model), and the full `[::-1]`
then reverses them — refuting the claimed unchanged original order. -/
theorem bm25_tie_order_counterexample :
    bm25Search ["d0", "d1"] (getScores (fun _ _ => 0) [] 2) 5
      = [("d1", 0), ("d0", 0)]
    ∧ bm25Search ["d0", "d1"] (getScores (fun _ _ => 0) [] 2) 5
      ≠ [("d0", 0), ("d1", 0)] := by
  have h01 : ("d0" : String) = "d1" ↔ False := by simp
  have h10 : ("d1" : String) = "d0" ↔ False := by simp
  constructor
  · norm_num [bm25Search, getScores, argsortDesc, stSort, stIns, List.range_succ,
      List.filterMap_cons]
  · norm_num [bm25Search, getScores, argsortDesc, stSort, stIns, List.range_succ,
      List.filterMap_cons, h01, h10]

/-- An empty query makes every per-document score the empty sum `0`. -/
lemma getScores_empty (termScore : String → ℕ → ℚ) (n : ℕ) :
    getScores termScore [] n = List.replicate n 0 := by
  simp [getScores, List.map_const', List.length_range]

/-- Evaluation of `bm25Search` on an all-tied score vector IN THE STABLE
ARGSORT MODEL: the model returns the documents wholesale reversed.  This is
a fact about the model only — NumPy's default quicksort may permute equal
keys arbitrarily on longer arrays — so claim-level theorems use it solely
for tie-order-invariant consequences (here: a permutation statement) or for
two-element instances, where NumPy's insertion-sort path is stable like the
model. -/
lemma bm25Search_const_model (docs : List String) (c : ℚ) (topK : ℕ) :
    bm25Search docs (List.replicate docs.length c) topK
      = ((docs.map (fun d => (d, c))).reverse).take topK := by
  have hlen : (List.replicate docs.length c).length = docs.length :=
    List.length_replicate _ _
  have hsortid : stSort (fun y x : ℕ × ℚ => decide (y.2 < x.2))
      ((List.range (List.replicate docs.length c).length).zip
        (List.replicate docs.length c))
      = (List.range docs.length).map (fun i => (i, c)) := by
    rw [hlen]
    have hzip := zip_replicate_eq_map c (List.range docs.length)
    rw [List.length_range] at hzip
    rw [hzip]
    apply stSort_sorted_id
    rw [List.pairwise_map]
    refine pairwise_of_all ?_ _
    intro a b
    simp
  have hargsort : argsortDesc (List.replicate docs.length c)
      = (List.range docs.length).reverse := by
    unfold argsortDesc
    rw [hsortid, map_fst_pair]
  unfold bm25Search
  rw [hargsort]
  have htotal : ∀ i ∈ ((List.range docs.length).reverse).take topK,
      (fun i => if i < docs.length
        then some (docs.getD i "", (List.replicate docs.length c).getD i 0)
        else none) i
      = some ((fun i => (docs.getD i "", c)) i) := by
    intro i hi
    have hilt : i < docs.length := by
      have h1 : i ∈ (List.range docs.length).reverse := List.mem_of_mem_take hi
      rw [List.mem_reverse] at h1
      exact List.mem_range.mp h1
    have hrep : (List.replicate docs.length c).getD i 0 = c := by
      rw [List.getD_eq_getElem _ _ (by simpa [hlen] using hilt)]
      simp
    show (if i < docs.length
        then some (docs.getD i "", (List.replicate docs.length c).getD i 0)
        else none) = some (docs.getD i "", c)
    rw [if_pos hilt, hrep]
  rw [filterMap_eq_map_on _ _ _ htotal, List.map_take, List.map_reverse]
  have hmaps : (List.range docs.length).map (fun i => (docs.getD i "", c))
      = docs.map (fun d => (d, c)) := by
    have hcomp : (List.range docs.length).map (fun i => (docs.getD i "", c))
        = ((List.range docs.length).map (fun i => docs.getD i "")).map
            (fun d => (d, c)) := by
      rw [List.map_map]
      rfl
    rw [hcomp, range_map_getD]
  rw [hmaps]

/-- Claim C3 (amended): `BM25Search.search` does NOT break ties between
equal-scoring documents by original document order — the full `[::-1]`
reversal after `np.argsort` disturbs the tie order, and for a two-document
corpus an empty query provably returns the documents in reversed indexing
order.  What holds in general: an empty query scores every document zero,
and a fully tied corpus is returned whole (when `top_k` allows) as a
permutation of the documents carrying the tied score, in no guaranteed
order. -/
theorem bm25_tie_not_original_order :
    (∀ (termScore : String → ℕ → ℚ) (n : ℕ),
      getScores termScore [] n = List.replicate n 0)
    ∧ (∀ (docs : List String) (c : ℚ) (topK : ℕ), docs.length ≤ topK →
        List.Perm (bm25Search docs (List.replicate docs.length c) topK)
          (docs.map (fun d => (d, c))))
    ∧ ∀ termScore : String → ℕ → ℚ,
        bm25Search ["d0", "d1"] (getScores termScore [] 2) 5
          = [("d1", 0), ("d0", 0)] := by
  refine ⟨getScores_empty, ?_, ?_⟩
  · intro docs c topK htop
    rw [bm25Search_const_model, List.take_of_length_le (by simpa using htop)]
    exact List.reverse_perm _
  · intro termScore
    norm_num [bm25Search, getScores, argsortDesc, stSort, stIns, List.range_succ,
      List.filterMap_cons]

/-- Witness for `bm25_tie_not_original_order` at a concrete input. -/
theorem bm25_tie_not_original_order_witness :
    List.Perm (bm25Search ["a", "b"]
        (List.replicate (["a", "b"] : List String).length (0 : ℚ)) 2)
      ((["a", "b"] : List String).map (fun d => (d, (0 : ℚ)))) :=
  bm25_tie_not_original_order.2.1 ["a", "b"] 0 2 (by norm_num)

/-- Witness for `bm25_search_bounds` at a concrete input. -/
theorem bm25_search_bounds_witness :
    (("d1", (7 : ℚ)) : String × ℚ).1 ∈ ["d0", "d1"] :=
  (bm25_search_bounds ["d0", "d1"] [3, 7] 2).2.1 ("d1", 7)
    (by norm_num [bm25Search, argsortDesc, stSort, stIns, List.range_succ,
      List.filterMap_cons])

/-! ### Fixed-size chunking — `FixedChunker` in
`levels/03-chunking-strategies/utils/fixed_chunker.py` (the identical window
loop also appears as `ContextualChunker._create_base_chunks` in
`contextual_chunker.py` lines 110-144).

The `while start < len(tokens)` loop is modelled with a fuel counter
(structural recursion); `n + 1` units of fuel are provably enough whenever
`overlap < chunk_size`, because `start` then strictly increases.  Each loop
iteration emits the window `[start, min(start + chunk_size, n))` and breaks
after emitting a window that reaches the end. -/

/-- One run of the window loop from `start` with the given fuel. -/
def chunkLoop (cs ov n : ℕ) : ℕ → ℕ → List (ℕ × ℕ)
  | 0, _ => []
  | fuel + 1, start =>
    if start < n then
      if n ≤ start + cs then [(start, n)]
      else (start, start + cs) :: chunkLoop cs ov n fuel (start + cs - ov)
    else []

/-- The `[start_token, end_token)` windows produced by `FixedChunker.chunk`
on a text of `n` tokens. -/
def fixedWindows (cs ov n : ℕ) : List (ℕ × ℕ) :=
  chunkLoop cs ov n (n + 1) 0

/-- De-overlapped concatenation of token windows: each window contributes the
part not re-covered by the previous window (the previous window's end is
carried as `p`; the first window has `p = 0`, so `max a p = a` contributes the
whole window). -/
def joinW : ℕ → List (ℕ × ℕ) → List ℕ
  | _, [] => []
  | p, (a, b) :: t => List.range' (max a p) (b - max a p) ++ joinW b t

def joinWindows (ws : List (ℕ × ℕ)) : List ℕ := joinW 0 ws

lemma joinW_chunkLoop (cs ov n : ℕ) (hov : ov < cs) :
    ∀ (fuel start p : ℕ), n - start < fuel → start ≤ p → p ≤ n → p ≤ start + cs →
      joinW p (chunkLoop cs ov n fuel start) = List.range' p (n - p) := by
  intro fuel
  induction fuel with
  | zero => intro start p hfuel _ _ _; omega
  | succ fuel ih =>
    intro start p hfuel hsp hpn hpc
    by_cases hstart : start < n
    · by_cases hend : n ≤ start + cs
      · rw [show chunkLoop cs ov n (fuel + 1) start = [(start, n)] from by
          simp [chunkLoop, hstart, hend]]
        show List.range' (max start p) (n - max start p) ++ joinW n [] = List.range' p (n - p)
        rw [max_eq_right hsp]
        simp [joinW]
      · rw [show chunkLoop cs ov n (fuel + 1) start
            = (start, start + cs) :: chunkLoop cs ov n fuel (start + cs - ov) from by
          simp [chunkLoop, hstart, hend]]
        show List.range' (max start p) (start + cs - max start p) ++
          joinW (start + cs) (chunkLoop cs ov n fuel (start + cs - ov))
          = List.range' p (n - p)
        rw [max_eq_right hsp]
        rw [ih (start + cs - ov) (start + cs) (by omega) (by omega) (by omega) (by omega)]
        have happ := List.range'_append p (start + cs - p) (n - (start + cs)) 1
        simp only [one_mul, Nat.mul_one] at happ
        rw [show p + (start + cs - p) = start + cs from by omega] at happ
        rw [happ, show n - (start + cs) + (start + cs - p) = n - p from by omega]
    · rw [show chunkLoop cs ov n (fuel + 1) start = [] from by simp [chunkLoop, hstart]]
      show ([] : List ℕ) = List.range' p (n - p)
      rw [show n - p = 0 from by omega]
      rfl

lemma chunkLoop_sizes (cs ov n : ℕ) :
    ∀ (fuel start : ℕ), ∀ i : ℕ, i + 1 < (chunkLoop cs ov n fuel start).length →
      ((chunkLoop cs ov n fuel start).getD i (0, 0)).2
        - ((chunkLoop cs ov n fuel start).getD i (0, 0)).1 = cs := by
  intro fuel
  induction fuel with
  | zero => intro start i hi; simp [chunkLoop] at hi
  | succ fuel ih =>
    intro start i hi
    by_cases hstart : start < n
    · by_cases hend : n ≤ start + cs
      · rw [show chunkLoop cs ov n (fuel + 1) start = [(start, n)] from by
          simp [chunkLoop, hstart, hend]] at hi
        simp at hi
      · rw [show chunkLoop cs ov n (fuel + 1) start
            = (start, start + cs) :: chunkLoop cs ov n fuel (start + cs - ov) from by
          simp [chunkLoop, hstart, hend]] at hi ⊢
        cases i with
        | zero => simp
        | succ j =>
          rw [List.getD_cons_succ]
          exact ih (start + cs - ov) j (by simpa using hi)
    · rw [show chunkLoop cs ov n (fuel + 1) start = [] from by
        simp [chunkLoop, hstart]] at hi
      simp at hi

/-- Claim C4: under the precondition `0 ≤ overlap < chunk_size`, the windows
of `FixedChunker.chunk` cover the tokenized text exactly — mapping the
de-overlapped concatenation of the windows over the token list reconstructs
the token list — and every chunk except possibly the last spans exactly
`chunk_size` tokens. -/
theorem fixed_chunk_roundtrip (cs ov : ℕ) (hov : ov < cs) (ts : List ℤ) :
    ((joinWindows (fixedWindows cs ov ts.length)).map (fun i => ts.getD i 0)) = ts
    ∧ ∀ i : ℕ, i + 1 < (fixedWindows cs ov ts.length).length →
        ((fixedWindows cs ov ts.length).getD i (0, 0)).2
          - ((fixedWindows cs ov ts.length).getD i (0, 0)).1 = cs := by
  constructor
  · have hjoin : joinWindows (fixedWindows cs ov ts.length) = List.range ts.length := by
      unfold joinWindows fixedWindows
      rw [joinW_chunkLoop cs ov ts.length hov (ts.length + 1) 0 0 (by omega) (le_refl 0)
        (by omega) (by omega)]
      rw [Nat.sub_zero, List.range_eq_range']
    rw [hjoin, range_map_getD]
  · intro i hi
    exact chunkLoop_sizes cs ov ts.length (ts.length + 1) 0 i hi

/-- Witness for `fixed_chunk_roundtrip` at a concrete input. -/
theorem fixed_chunk_roundtrip_witness :
    ((joinWindows (fixedWindows 3 1 ([10, 20, 30, 40, 50] : List ℤ).length)).map
        (fun i => ([10, 20, 30, 40, 50] : List ℤ).getD i 0)) = [10, 20, 30, 40, 50] :=
  (fixed_chunk_roundtrip 3 1 (by omega) [10, 20, 30, 40, 50]).1

/-! ### Claim C5 — `FixedChunker.__init__` validation.

Lines 23-37 of `fixed_chunker.py` store the configuration and only PRINT a
warning when `chunk_overlap > 0.2 * chunk_size`; no exception is ever
raised, so `overlap >= chunk_size` is accepted and the `while` loop of
`chunk` then never advances `start`. -/

/-- `FixedChunker.__init__`: stores the configuration unconditionally; the
boolean records whether the warning line would print.  Modelled as `Except`
to show that no error path exists. -/
def fixedChunkerInit (cs ov : ℤ) : Except String ((ℤ × ℤ) × Bool) :=
  Except.ok ((cs, ov), decide ((ov : ℚ) > (cs : ℚ) * (2 / 10)))

/-- Claim C5 is violated by the code: constructing a `FixedChunker` with
`overlap = chunk_size = 2` succeeds (only a warning is printed), and on a
3-token text the window loop then re-produces the same state forever — with
any amount of fuel the loop emits `(0, 2)` and returns to `start = 0`, the
non-termination the spec's validation was meant to prevent. -/
theorem fixed_chunker_accepts_bad_overlap :
    fixedChunkerInit 2 2 = Except.ok ((2, 2), true)
    ∧ ∀ fuel : ℕ, chunkLoop 2 2 3 (fuel + 1) 0 = (0, 2) :: chunkLoop 2 2 3 fuel 0 := by
  constructor
  · norm_num [fixedChunkerInit]
  · intro fuel
    simp [chunkLoop]

/-! ### Recursive chunking — `RecursiveChunker` in
`levels/03-chunking-strategies/utils/recursive_chunker.py`.

Text is modelled as `List Char` and the external `tiktoken` tokenizer as the
character-level tokenizer (`encode = chars`, `decode = concatenation`), so a
segment's token count is its length and the atomic unit at the finest
separator level (`""`, single characters) has exactly one token.  Python's
`str.split(sep)` is modelled by `splitOnL` (fuel-based scan, fuel = text
length is always sufficient). -/

/-- Scan for `str.split`: `acc` holds the current segment reversed. -/
def splitOnAuxL (sep : List Char) : ℕ → List Char → List Char → List (List Char)
  | 0, rem, acc => [acc.reverse ++ rem]
  | fuel + 1, rem, acc =>
    match rem with
    | [] => [acc.reverse]
    | c :: rest =>
      if sep.isPrefixOf (c :: rest) then
        acc.reverse :: splitOnAuxL sep fuel ((c :: rest).drop sep.length) []
      else splitOnAuxL sep fuel rest (acc ++ [c])

/-- Python `text.split(separator)` for a non-empty separator (the code never
calls it with an empty one — that case is handled by the `list(text)`
branch). -/
def splitOnL (sep text : List Char) : List (List Char) :=
  if sep = [] then [text] else splitOnAuxL sep text.length text []

/-- "Add separator back (except for last split)": the enumerated split `ip`
out of `n` splits gets the separator re-appended unless it is the last. -/
def reAdd (sep : List Char) (n : ℕ) (ip : ℕ × List Char) : List Char :=
  if ip.1 + 1 < n then ip.2 ++ sep else ip.2

/-- `RecursiveChunker._recursive_split`: try separators in order; re-append
the separator to every split but the last; skip empty splits; recurse with
the finer separators on any split whose token count still exceeds
`chunk_size`. -/
def recSplit (cs : ℕ) : List (List Char) → List Char → List (List Char)
  | [], text => [text]
  | sep :: rest, text =>
    if sep = [] then text.map (fun c => [c])
    else
      (splitOnL sep text).enum.flatMap (fun ip =>
        if ip.2 = [] then []
        else if cs < (reAdd sep (splitOnL sep text).length ip).length ∧ rest ≠ [] then
          recSplit cs rest (reAdd sep (splitOnL sep text).length ip)
        else [reAdd sep (splitOnL sep text).length ip])

/-- `RecursiveChunker._get_overlap` on the parts of the current chunk: the
whole text when it has at most `chunk_overlap` tokens, otherwise the last
`chunk_overlap` tokens — except that Python's `tokens[-0:]` is the WHOLE
list, which the model keeps faithfully for `overlap = 0`. -/
def getOverlapL (ov : ℕ) (toks : List Char) : List Char :=
  if toks.length ≤ ov then toks
  else if ov = 0 then toks else toks.drop (toks.length - ov)

/-- The greedy packing loop of `RecursiveChunker.chunk`: state is the list of
segments of the current chunk and its token total; emits `(text, num_tokens)`
pairs. -/
def packChunks (cs ov : ℕ) : List (List Char) → List (List Char) → ℕ → List (List Char × ℕ)
  | [], cur, tot => if cur = [] then [] else [(cur.flatten, tot)]
  | s :: rest, cur, tot =>
    if cs < tot + s.length ∧ cur ≠ [] then
      (cur.flatten, tot) ::
        packChunks cs ov rest
          (if getOverlapL ov cur.flatten = [] then [s]
            else [getOverlapL ov cur.flatten, s])
          ((if getOverlapL ov cur.flatten = []
              then 0 else (getOverlapL ov cur.flatten).length) + s.length)
    else packChunks cs ov rest (cur ++ [s]) (tot + s.length)

/-- The separator hierarchy of `RecursiveChunker.__init__`. -/
def SEPARATORS : List (List Char) :=
  [['\n', '\n'], ['\n'], ['.', ' '], ['!', ' '], ['?', ' '], [';', ' '],
    [',', ' '], [' '], []]

/-- `RecursiveChunker.chunk`: split recursively, then pack greedily with
overlap carry. -/
def recursiveChunk (cs ov : ℕ) (text : List Char) : List (List Char × ℕ) :=
  packChunks cs ov (recSplit cs SEPARATORS text) [] 0

/-- Claim C7 counterexample: with `chunk_size = 5`, `chunk_overlap = 2` and
the 9-character text `"aa. bbbbb"` the recursive splitter yields the
segments `"aa. "` (4 tokens) and `"bbbbb"` (5 tokens); the packer flushes
`"aa. "`, carries the 2-token overlap `". "`, and emits a final chunk
`". bbbbb"` of 7 tokens — exceeding `chunk_size` by 2 tokens, more than one
single-character atomic unit. -/
theorem recursive_chunk_overage_counterexample :
    (recursiveChunk 5 2 ['a', 'a', '.', ' ', 'b', 'b', 'b', 'b', 'b']).map Prod.snd
      = [4, 7]
    ∧ (['.', ' ', 'b', 'b', 'b', 'b', 'b'], 7) ∈
        recursiveChunk 5 2 ['a', 'a', '.', ' ', 'b', 'b', 'b', 'b', 'b']
    ∧ 5 + 1 < 7 := by decide

lemma getOverlapL_length (ov : ℕ) (hov : 1 ≤ ov) (toks : List Char) :
    (getOverlapL ov toks).length ≤ ov := by
  unfold getOverlapL
  by_cases h1 : toks.length ≤ ov
  · rw [if_pos h1]
    exact h1
  · rw [if_neg h1, if_neg (by omega)]
    rw [List.length_drop]
    omega

lemma recSplit_sizes (cs : ℕ) (hcs : 1 ≤ cs) :
    ∀ seps : List (List Char), [] ∈ seps →
      ∀ text : List Char, ∀ s ∈ recSplit cs seps text, s.length ≤ cs := by
  intro seps
  induction seps with
  | nil => intro h; simp at h
  | cons sep rest ih =>
    intro hmem text s hs
    by_cases hsep : sep = []
    · subst hsep
      simp only [recSplit, if_pos rfl] at hs
      rcases List.mem_map.mp hs with ⟨c, _, hc⟩
      rw [← hc]
      simpa using hcs
    · have hrest : [] ∈ rest := by
        rcases List.mem_cons.mp hmem with h | h
        · exact absurd h.symm hsep
        · exact h
      have hrne : rest ≠ [] := List.ne_nil_of_mem hrest
      simp only [recSplit, if_neg hsep] at hs
      rcases List.mem_flatMap.mp hs with ⟨ip, _, hsin⟩
      by_cases hempty : ip.2 = []
      · rw [if_pos hempty] at hsin
        simp at hsin
      · rw [if_neg hempty] at hsin
        by_cases hbig : cs < (reAdd sep (splitOnL sep text).length ip).length ∧ rest ≠ []
        · rw [if_pos hbig] at hsin
          exact ih hrest _ s hsin
        · rw [if_neg hbig] at hsin
          simp only [List.mem_singleton] at hsin
          subst hsin
          push_neg at hbig
          exact le_of_not_lt (fun hc => hrne (hbig hc))

lemma packChunks_bound (cs ov : ℕ) (hov : 1 ≤ ov) :
    ∀ (splits : List (List Char)) (cur : List (List Char)) (tot : ℕ),
      (∀ s ∈ splits, s.length ≤ cs) → tot ≤ cs + ov → (cur = [] → tot = 0) →
      ∀ c ∈ packChunks cs ov splits cur tot, c.2 ≤ cs + ov := by
  intro splits
  induction splits with
  | nil =>
    intro cur tot _ htot _ c hc
    simp only [packChunks] at hc
    by_cases h : cur = []
    · rw [if_pos h] at hc
      simp at hc
    · rw [if_neg h] at hc
      simp only [List.mem_singleton] at hc
      rw [hc]
      exact htot
  | cons s rest ih =>
    intro cur tot hsplits htot hcur c hc
    have hs : s.length ≤ cs := hsplits s (by simp)
    have hrest : ∀ x ∈ rest, x.length ≤ cs := fun x hx => hsplits x (by simp [hx])
    simp only [packChunks] at hc
    by_cases hflush : cs < tot + s.length ∧ cur ≠ []
    · rw [if_pos hflush] at hc
      rcases List.mem_cons.mp hc with hc1 | hc2
      · rw [hc1]
        exact htot
      · refine ih _ _ hrest ?_ ?_ c hc2
        · by_cases hove : getOverlapL ov cur.flatten = []
          · rw [if_pos hove]
            omega
          · rw [if_neg hove]
            have := getOverlapL_length ov hov cur.flatten
            omega
        · intro h
          by_cases hove : getOverlapL ov cur.flatten = [] <;> simp [hove] at h
    · rw [if_neg hflush] at hc
      refine ih _ _ hrest ?_ (by simp) c hc
      push_neg at hflush
      by_cases hcure : cur = []
      · rw [hcur hcure]
        omega
      · have := hflush
        have hle : tot + s.length ≤ cs := le_of_not_lt (fun hlt => hcure (this hlt))
        omega

/-- Claim C7 (amended): with a character-level tokenizer model, `1 ≤
chunk_size` and `1 ≤ chunk_overlap`, every chunk `RecursiveChunker.chunk`
produces has at most `chunk_size + chunk_overlap` tokens — the excess over
`chunk_size` is bounded by the whole overlap carry, not by one atomic
unit (see `recursive_chunk_overage_counterexample`). -/
theorem recursive_chunk_size_bound (cs ov : ℕ) (hcs : 1 ≤ cs) (hov : 1 ≤ ov)
    (text : List Char) : ∀ c ∈ recursiveChunk cs ov text, c.2 ≤ cs + ov := by
  intro c hc
  refine packChunks_bound cs ov hov _ [] 0 ?_ (by omega) (fun _ => rfl) c hc
  intro s hs
  exact recSplit_sizes cs hcs SEPARATORS (by simp [SEPARATORS]) text s hs

/-- Witness for `recursive_chunk_size_bound` at a concrete input. -/
theorem recursive_chunk_size_bound_witness :
    ((['.', ' ', 'b', 'b', 'b', 'b', 'b'], 7) : List Char × ℕ).2 ≤ 5 + 2 :=
  recursive_chunk_size_bound 5 2 (by omega) (by omega)
    ['a', 'a', '.', ' ', 'b', 'b', 'b', 'b', 'b']
    (['.', ' ', 'b', 'b', 'b', 'b', 'b'], 7) (by decide)

/-! ### Contextual chunking — `ContextualChunker` in
`levels/03-chunking-strategies/utils/contextual_chunker.py`.

The external tokenizer is abstracted as an `encode`/`decode` pair and the
completion capability (`client.chat.completions.create` + content
extraction) as `complete : String → Option String`, `none` standing for any
raised exception.  `_create_base_chunks` runs the same window loop as
`FixedChunker.chunk`, so it reuses `fixedWindows`. -/

/-- A base chunk of `_create_base_chunks`. -/
structure BaseChunk where
  text : String
  startTok : ℕ
  endTok : ℕ
  numTokens : ℕ
  overlapTokens : ℕ
deriving Repr, DecidableEq

/-- `ContextualChunker._create_base_chunks`. -/
def createBaseChunks (cs ov : ℕ) (encode : String → List ℤ) (decode : List ℤ → String)
    (text : String) : List BaseChunk :=
  (fixedWindows cs ov (encode text).length).map (fun w =>
    { text := decode (((encode text).drop w.1).take (w.2 - w.1)),
      startTok := w.1, endTok := w.2,
      numTokens := (((encode text).drop w.1).take (w.2 - w.1)).length,
      overlapTokens := if 0 < w.1 then ov else 0 })

/-- The fixed placeholder context of `_generate_context`'s except-branch. -/
def CONTEXT_PLACEHOLDER : String := "This chunk is from the document."

/-- `CONTEXT_INSTRUCTIONS_TEMPLATE.format(document=..., chunk=...)` from
`levels/03-chunking-strategies/utils/config.py`. -/
def promptOf (document chunkText : String) : String :=
  "You are generating context for a document chunk to improve search retrieval.\n\n<document>\n"
    ++ document
    ++ "\n</document>\n\nHere is the chunk we want to situate within the whole document:\n<chunk>\n"
    ++ chunkText
    ++ "\n</chunk>\n\nPlease give a short succinct context to situate this chunk within the overall document for the purposes of improving search retrieval of the chunk. Answer only with the succinct context and nothing else."

/-- `ContextualChunker._generate_context`: call the completion capability on
the formatted prompt; on success return the stripped content, on any
exception return the placeholder. -/
def generateContext (complete : String → Option String) (document chunkText : String) :
    String :=
  match complete (promptOf document chunkText) with
  | some r => r.trim
  | none => CONTEXT_PLACEHOLDER

/-- An enriched chunk of `ContextualChunker.chunk`. -/
structure EnrichedChunk where
  text : String
  originalText : String
  context : String
  chunkId : String
  startTok : ℕ
  endTok : ℕ
  numTokens : ℕ
  numTokensOriginal : ℕ
  numTokensContext : ℕ
  overlapTokens : ℕ

/-- `ContextualChunker.chunk`: base chunks via fixed-size chunking, then one
context-generation call per chunk, prepending `context ++ "\n\n"`. -/
def contextualChunk (cs ov : ℕ) (encode : String → List ℤ) (decode : List ℤ → String)
    (complete : String → Option String) (text docId : String) : List EnrichedChunk :=
  (createBaseChunks cs ov encode decode text).enum.map (fun ic =>
    { text := generateContext complete text ic.2.text ++ "\n\n" ++ ic.2.text,
      originalText := ic.2.text,
      context := generateContext complete text ic.2.text,
      chunkId := docId ++ "_chunk_" ++ toString ic.1,
      startTok := ic.2.startTok, endTok := ic.2.endTok,
      numTokens := (encode (generateContext complete text ic.2.text ++ "\n\n"
        ++ ic.2.text)).length,
      numTokensOriginal := ic.2.numTokens,
      numTokensContext := (encode (generateContext complete text ic.2.text)).length,
      overlapTokens := ic.2.overlapTokens })

/-- Claim C8: if the completion capability raises on every call,
`ContextualChunker.chunk` still returns exactly as many chunks as the base
fixed-size chunking of the document, each carrying the fixed placeholder
context "This chunk is from the document.". -/
theorem contextual_chunk_failure_placeholder (cs ov : ℕ)
    (encode : String → List ℤ) (decode : List ℤ → String)
    (complete : String → Option String) (hfail : ∀ p, complete p = none)
    (text docId : String) :
    (contextualChunk cs ov encode decode complete text docId).length
      = (createBaseChunks cs ov encode decode text).length
    ∧ ∀ c ∈ contextualChunk cs ov encode decode complete text docId,
        c.context = CONTEXT_PLACEHOLDER := by
  constructor
  · unfold contextualChunk
    rw [List.length_map, List.enum_length]
  · intro c hc
    unfold contextualChunk at hc
    rcases List.mem_map.mp hc with ⟨ic, _, hic⟩
    rw [← hic]
    show generateContext complete text ic.2.text = CONTEXT_PLACEHOLDER
    unfold generateContext
    rw [hfail (promptOf text ic.2.text)]

/-- Witness for `contextual_chunk_failure_placeholder` at a concrete input. -/
theorem contextual_chunk_failure_placeholder_witness :
    (contextualChunk 3 1 (fun s => s.data.map (fun c => (c.toNat : ℤ)))
        (fun _ => "t") (fun _ => none) "hello" "d").length
      = (createBaseChunks 3 1 (fun s => s.data.map (fun c => (c.toNat : ℤ)))
          (fun _ => "t") "hello").length :=
  (contextual_chunk_failure_placeholder 3 1 _ _ _ (fun _ => rfl) "hello" "d").1


/-! ### The chunk-embedding cache — `ChunkEvaluator._get_embeddings` in
`levels/03-chunking-strategies/utils/chunk_evaluator.py` lines 67-103.

`hashlib.sha256(...).hexdigest()[:16]` (`_get_chunk_hash`) is external, so
the hash is the parameter `hashFn`; the embedder capability is the parameter
`embed`.  The embedding cache dict is an insertion-ordered association list
(`dictSet` is plain dict assignment); the disk cache is not exercised
(`cache_dir = None`). -/

/-- `self.embedding_cache[key] = v`: overwrite in place or append. -/
def dictSet {E : Type} : List (String × E) → String → E → List (String × E)
  | [], key, v => [(key, v)]
  | (a, b) :: t, key, v =>
    if a = key then (a, v) :: t else (a, b) :: dictSet t key v

/-- `key in self.embedding_cache` / `self.embedding_cache[key]`. -/
def lookupE {E : Type} (cache : List (String × E)) (key : String) : Option E :=
  (cache.find? (fun p => decide (p.1 = key))).map Prod.snd

/-- The `(i, embedding)` pairs served from the cache during the first pass. -/
def cachedPairs {E : Type} (hashFn : String → String) (cache : List (String × E))
    (texts : List String) : List (ℕ × E) :=
  texts.enum.filterMap (fun it => (lookupE cache (hashFn it.2)).map (fun e => (it.1, e)))

/-- The enumerated texts that miss the cache (`texts_to_embed` with their
indices). -/
def toEmbedPairs {E : Type} (hashFn : String → String) (cache : List (String × E))
    (texts : List String) : List (ℕ × String) :=
  texts.enum.filter (fun it => (lookupE cache (hashFn it.2)).isNone)

/-- `zip(indices_to_embed, new_embeddings)`: each cache miss, keyed by index
and hash, paired with its freshly computed embedding. -/
def newPairs {E : Type} (hashFn : String → String) (embed : List String → List E)
    (cache : List (String × E)) (texts : List String) : List ((ℕ × String) × E) :=
  ((toEmbedPairs hashFn cache texts).map (fun it => (it.1, hashFn it.2))).zip
    (embed ((toEmbedPairs hashFn cache texts).map Prod.snd))

/-- `ChunkEvaluator._get_embeddings`: returns the embeddings sorted back into
input order, the updated cache, and the list of texts actually sent to the
embedder (empty when no embedder call is issued). -/
def getEmbeddings {E : Type} (hashFn : String → String) (embed : List String → List E)
    (cache : List (String × E)) (texts : List String) :
    List E × List (String × E) × List String :=
  if (toEmbedPairs hashFn cache texts).map Prod.snd = [] then
    ((stSort (fun y x : ℕ × E => decide (y.1 < x.1))
      (cachedPairs hashFn cache texts)).map Prod.snd, cache, [])
  else
    ((stSort (fun y x : ℕ × E => decide (y.1 < x.1))
      (cachedPairs hashFn cache texts
        ++ (newPairs hashFn embed cache texts).map (fun ie => (ie.1.1, ie.2)))).map
      Prod.snd,
    (newPairs hashFn embed cache texts).foldl (fun c ie => dictSet c ie.1.2 ie.2) cache,
    (toEmbedPairs hashFn cache texts).map Prod.snd)

lemma filter_enumFrom_snd (p : String → Bool) :
    ∀ (l : List String) (n : ℕ),
      ((List.enumFrom n l).filter (fun it => p it.2)).map Prod.snd = l.filter p := by
  intro l
  induction l with
  | nil => intro n; rfl
  | cons x t ih =>
    intro n
    show (((n, x) :: List.enumFrom (n + 1) t).filter (fun it => p it.2)).map Prod.snd
      = (x :: t).filter p
    rw [List.filter_cons, List.filter_cons]
    by_cases hp : p x <;> simp [hp, ih]

lemma toEmbedPairs_snd {E : Type} (hashFn : String → String)
    (cache : List (String × E)) (texts : List String) :
    (toEmbedPairs hashFn cache texts).map Prod.snd
      = texts.filter (fun x => (lookupE cache (hashFn x)).isNone) := by
  unfold toEmbedPairs
  rw [show texts.enum = List.enumFrom 0 texts from rfl]
  exact filter_enumFrom_snd (fun x => (lookupE cache (hashFn x)).isNone) texts 0

lemma lookupE_cons {E : Type} (a : String) (b : E) (t : List (String × E)) (k : String) :
    lookupE ((a, b) :: t) k = if a = k then some b else lookupE t k := by
  by_cases h : a = k <;> simp [lookupE, List.find?, h]

lemma lookupE_dictSet {E : Type} (k k2 : String) (v : E) :
    ∀ c : List (String × E),
      lookupE (dictSet c k v) k2 = if k2 = k then some v else lookupE c k2 := by
  intro c
  induction c with
  | nil =>
    show lookupE [(k, v)] k2 = if k2 = k then some v else lookupE [] k2
    rw [lookupE_cons]
    by_cases h : k = k2
    · rw [if_pos h, if_pos h.symm]
    · rw [if_neg h, if_neg (fun hh => h hh.symm)]
  | cons p t ih =>
    obtain ⟨a, b⟩ := p
    by_cases hak : a = k
    · subst hak
      rw [show dictSet ((a, b) :: t) a v = (a, v) :: t from by simp [dictSet]]
      rw [lookupE_cons, lookupE_cons]
      by_cases h : a = k2
      · rw [if_pos h, if_pos h.symm]
      · rw [if_neg h, if_neg (fun hh => h hh.symm), if_neg h]
    · rw [show dictSet ((a, b) :: t) k v = (a, b) :: dictSet t k v from by
        simp [dictSet, hak]]
      rw [lookupE_cons, lookupE_cons, ih]
      by_cases h : a = k2
      · by_cases h2 : k2 = k
        · exact absurd (h.trans h2) hak
        · rw [if_pos h, if_neg h2, if_pos h]
      · by_cases h2 : k2 = k
        · rw [if_neg h, if_pos h2, if_pos h2]
        · rw [if_neg h, if_neg h2, if_neg h2, if_neg h]

lemma foldl_dictSet_some {E : Type} (k : String) :
    ∀ (pairs : List ((ℕ × String) × E)) (c : List (String × E)),
      ((∃ ie ∈ pairs, ie.1.2 = k) ∨ (lookupE c k).isSome) →
      (lookupE (pairs.foldl (fun c ie => dictSet c ie.1.2 ie.2) c) k).isSome := by
  intro pairs
  induction pairs with
  | nil =>
    intro c h
    rcases h with h | h
    · simp at h
    · exact h
  | cons ie t ih =>
    intro c h
    show (lookupE (t.foldl (fun c ie => dictSet c ie.1.2 ie.2)
      (dictSet c ie.1.2 ie.2)) k).isSome
    by_cases hk : ie.1.2 = k
    · refine ih _ (Or.inr ?_)
      rw [hk, lookupE_dictSet]
      simp
    · rcases h with h | h
      · rcases h with ⟨je, hje, hjek⟩
        rcases List.mem_cons.mp hje with hh | hh
        · exact absurd (hh ▸ hjek) hk
        · exact ih _ (Or.inl ⟨je, hh, hjek⟩)
      · refine ih _ (Or.inr ?_)
        rw [lookupE_dictSet, if_neg (fun hh => hk hh.symm)]
        exact h

/-- Claim C9: embedding the same text `t` through the cache twice — two
successive `_get_embeddings` calls whose inputs contain `t`, starting from a
cache that does not hold `t`'s hash — sends `t` to the embedder exactly as
often as it occurs in the first call's input, and never again in the second
call: the second occurrence is served from the cache. -/
theorem chunk_cache_single_embed_call {E : Type} (hashFn : String → String)
    (embed : List String → List E) (hlen : ∀ ts, (embed ts).length = ts.length)
    (cache : List (String × E)) (t : String) (texts1 texts2 : List String)
    (hmiss : lookupE cache (hashFn t) = none) (h1 : t ∈ texts1) (h2 : t ∈ texts2) :
    (getEmbeddings hashFn embed cache texts1).2.2.count t = texts1.count t
    ∧ ((getEmbeddings hashFn embed
        (getEmbeddings hashFn embed cache texts1).2.1 texts2).2.2.count t = 0) := by
  have hpt : (lookupE cache (hashFn t)).isNone = true := by
    rw [hmiss]
    rfl
  have htmem : t ∈ (toEmbedPairs hashFn cache texts1).map Prod.snd := by
    rw [toEmbedPairs_snd]
    exact List.mem_filter.mpr ⟨h1, hpt⟩
  have hne : (toEmbedPairs hashFn cache texts1).map Prod.snd ≠ [] :=
    List.ne_nil_of_mem htmem
  have hsnd : (getEmbeddings hashFn embed cache texts1).2
      = ((newPairs hashFn embed cache texts1).foldl
          (fun c ie => dictSet c ie.1.2 ie.2) cache,
        (toEmbedPairs hashFn cache texts1).map Prod.snd) := by
    unfold getEmbeddings
    rw [if_neg hne]
  constructor
  · have hthird : (getEmbeddings hashFn embed cache texts1).2.2
        = (toEmbedPairs hashFn cache texts1).map Prod.snd := by
      rw [hsnd]
    rw [hthird, toEmbedPairs_snd]
    exact List.count_filter hpt
  · have hcache1 : (getEmbeddings hashFn embed cache texts1).2.1
        = (newPairs hashFn embed cache texts1).foldl
            (fun c ie => dictSet c ie.1.2 ie.2) cache := by
      rw [hsnd]
    have hlenz : ((toEmbedPairs hashFn cache texts1).map
        (fun it => (it.1, hashFn it.2))).length
        ≤ (embed ((toEmbedPairs hashFn cache texts1).map Prod.snd)).length := by
      rw [hlen, List.length_map, List.length_map]
    have hfst : (newPairs hashFn embed cache texts1).map Prod.fst
        = (toEmbedPairs hashFn cache texts1).map (fun it => (it.1, hashFn it.2)) := by
      unfold newPairs
      exact List.map_fst_zip _ _ hlenz
    have hht : hashFn t ∈ ((toEmbedPairs hashFn cache texts1).map
        (fun it => (it.1, hashFn it.2))).map (fun q => q.2) := by
      rw [List.map_map]
      rcases List.mem_map.mp htmem with ⟨it, hit, hsnd2⟩
      exact List.mem_map.mpr ⟨it, hit, show hashFn it.2 = hashFn t from by rw [hsnd2]⟩
    have hex : ∃ ie ∈ newPairs hashFn embed cache texts1, ie.1.2 = hashFn t := by
      have hmm : hashFn t ∈ ((newPairs hashFn embed cache texts1).map Prod.fst).map
          (fun q => q.2) := by
        rw [hfst]
        exact hht
      rw [List.map_map] at hmm
      rcases List.mem_map.mp hmm with ⟨ie, hie, heq⟩
      exact ⟨ie, hie, heq⟩
    have hsome : (lookupE ((getEmbeddings hashFn embed cache texts1).2.1)
        (hashFn t)).isSome := by
      rw [hcache1]
      exact foldl_dictSet_some (hashFn t) _ cache (Or.inl hex)
    have hfalse : (lookupE ((getEmbeddings hashFn embed cache texts1).2.1)
        (hashFn t)).isNone = false := by
      rcases ho : lookupE ((getEmbeddings hashFn embed cache texts1).2.1) (hashFn t)
        with _ | e
      · rw [ho] at hsome
        simp at hsome
      · rfl
    have hcount : (texts2.filter
        (fun x => (lookupE ((getEmbeddings hashFn embed cache texts1).2.1)
          (hashFn x)).isNone)).count t = 0 := by
      rw [List.count_eq_zero]
      intro hmem2
      have hmf := (List.mem_filter.mp hmem2).2
      rw [hfalse] at hmf
      exact absurd hmf (by simp)
    have hthird2 : (getEmbeddings hashFn embed
        ((getEmbeddings hashFn embed cache texts1).2.1) texts2).2.2
        = (if (toEmbedPairs hashFn ((getEmbeddings hashFn embed cache texts1).2.1)
              texts2).map Prod.snd = []
          then ([] : List String)
          else (toEmbedPairs hashFn ((getEmbeddings hashFn embed cache texts1).2.1)
              texts2).map Prod.snd) := by
      generalize ((getEmbeddings hashFn embed cache texts1).2.1) = cache1
      unfold getEmbeddings
      by_cases hif : (toEmbedPairs hashFn cache1 texts2).map Prod.snd = []
      · rw [if_pos hif, if_pos hif]
      · rw [if_neg hif, if_neg hif]
    rw [hthird2]
    by_cases hif : (toEmbedPairs hashFn ((getEmbeddings hashFn embed cache texts1).2.1)
        texts2).map Prod.snd = []
    · rw [if_pos hif]
      rfl
    · rw [if_neg hif, toEmbedPairs_snd]
      exact hcount

/-- Witness for `chunk_cache_single_embed_call` at a concrete input. -/
theorem chunk_cache_single_embed_call_witness :
    (getEmbeddings id (fun ts => ts.map (fun _ => (0 : ℚ))) [] ["t"]).2.2.count "t"
      = (["t"] : List String).count "t"
    ∧ (getEmbeddings id (fun ts => ts.map (fun _ => (0 : ℚ)))
        (getEmbeddings id (fun ts => ts.map (fun _ => (0 : ℚ))) [] ["t"]).2.1
        ["t"]).2.2.count "t" = 0 :=
  chunk_cache_single_embed_call id (fun ts => ts.map (fun _ => (0 : ℚ)))
    (fun ts => List.length_map ts _) [] "t" ["t"] ["t"] rfl (by simp) (by simp)

/-! ### Similarity helpers — `levels/shared/retrieval/similarity.py`.

NumPy arrays are modelled by a shape plus flat rational data; the only
non-rational operation, `np.linalg.norm`'s square root, is the parameter
`sqrtF` (an external float kernel).  Each function mirrors the branch order
of the Python source exactly: the empty-`size` check comes first, then the
1-D query check, then the 1-D / 2-D document dispatch. -/

/-- A NumPy `ndarray`: `size` is the product of the shape, `ndim` its
length. -/
structure NDArr where
  shape : List ℕ
  data : List ℚ

def NDArr.size (a : NDArr) : ℕ := a.shape.prod

def NDArr.ndim (a : NDArr) : ℕ := a.shape.length

/-- `np.array([])`: shape `(0,)`, no data. -/
def emptyArr : NDArr := ⟨[0], []⟩

/-- `np.dot` of two flat vectors. -/
def dotL (u v : List ℚ) : ℚ := ((u.zip v).map (fun p => p.1 * p.2)).sum

/-- `np.linalg.norm v = sqrt (Σ v_i^2)` with the square root abstracted. -/
def normWith (sqrtF : ℚ → ℚ) (v : List ℚ) : ℚ := sqrtF ((v.map (fun x => x * x)).sum)

/-- `v / c` elementwise. -/
def scaleInv (c : ℚ) (v : List ℚ) : List ℚ := v.map (fun x => x / c)

/-- Elementwise difference (broadcast row minus query). -/
def diffL (u v : List ℚ) : List ℚ := (u.zip v).map (fun p => p.1 - p.2)

/-- The rows of a 2-D array stored flat. -/
def rowsOf (nrows ncols : ℕ) (dataL : List ℚ) : List (List ℚ) :=
  (List.range nrows).map (fun i => (dataL.drop (i * ncols)).take ncols)

/-- `cosine_similarity` (similarity.py lines 11-56). -/
def cosine_similarity (sqrtF : ℚ → ℚ) (q d : NDArr) : Except String NDArr :=
  if q.size = 0 ∨ d.size = 0 then Except.ok emptyArr
  else if q.ndim ≠ 1 then Except.error "query_embedding must be 1D array"
  else if d.ndim = 1 then
    Except.ok ⟨[], [dotL (scaleInv (normWith sqrtF q.data) q.data)
      (scaleInv (normWith sqrtF d.data) d.data)]⟩
  else if d.ndim ≠ 2 then Except.error "doc_embeddings must be 1D or 2D array"
  else
    Except.ok ⟨[d.shape.getD 0 0],
      (rowsOf (d.shape.getD 0 0) (d.shape.getD 1 0) d.data).map
        (fun r => dotL (scaleInv (normWith sqrtF r) r)
          (scaleInv (normWith sqrtF q.data) q.data))⟩

/-- `euclidean_distance` (similarity.py lines 59-90). -/
def euclidean_distance (sqrtF : ℚ → ℚ) (q d : NDArr) : Except String NDArr :=
  if q.size = 0 ∨ d.size = 0 then Except.ok emptyArr
  else if q.ndim ≠ 1 then Except.error "query_embedding must be 1D array"
  else if d.ndim = 1 then
    Except.ok ⟨[], [normWith sqrtF (diffL q.data d.data)]⟩
  else if d.ndim ≠ 2 then Except.error "doc_embeddings must be 1D or 2D array"
  else
    Except.ok ⟨[d.shape.getD 0 0],
      (rowsOf (d.shape.getD 0 0) (d.shape.getD 1 0) d.data).map
        (fun r => normWith sqrtF (diffL r q.data))⟩

/-- `dot_product_similarity` (similarity.py lines 93-122). -/
def dot_product_similarity (q d : NDArr) : Except String NDArr :=
  if q.size = 0 ∨ d.size = 0 then Except.ok emptyArr
  else if q.ndim ≠ 1 then Except.error "query_embedding must be 1D array"
  else if d.ndim = 1 then Except.ok ⟨[], [dotL q.data d.data]⟩
  else if d.ndim ≠ 2 then Except.error "doc_embeddings must be 1D or 2D array"
  else
    Except.ok ⟨[d.shape.getD 0 0],
      (rowsOf (d.shape.getD 0 0) (d.shape.getD 1 0) d.data).map
        (fun r => dotL r q.data)⟩

/-- Claim C10: whenever the query embedding or the document array has size
zero, all three similarity functions return the empty array and never raise:
the empty-input check precedes every shape check, so even a malformed
(non-1-D) query paired with an empty documents array yields the empty
result. -/
theorem similarity_empty_input (sqrtF : ℚ → ℚ) (q d : NDArr)
    (h : q.size = 0 ∨ d.size = 0) :
    cosine_similarity sqrtF q d = Except.ok emptyArr
    ∧ euclidean_distance sqrtF q d = Except.ok emptyArr
    ∧ dot_product_similarity q d = Except.ok emptyArr := by
  unfold cosine_similarity euclidean_distance dot_product_similarity
  rw [if_pos h, if_pos h, if_pos h]
  exact ⟨rfl, rfl, rfl⟩

/-- Witness for `similarity_empty_input`: a malformed 2-D query with an empty
document array yields the empty array (no error) in all three functions. -/
theorem similarity_empty_input_witness :
    cosine_similarity id ⟨[2, 2], [1, 2, 3, 4]⟩ ⟨[0], []⟩ = Except.ok emptyArr
    ∧ euclidean_distance id ⟨[2, 2], [1, 2, 3, 4]⟩ ⟨[0], []⟩ = Except.ok emptyArr
    ∧ dot_product_similarity ⟨[2, 2], [1, 2, 3, 4]⟩ ⟨[0], []⟩ = Except.ok emptyArr :=
  similarity_empty_input id ⟨[2, 2], [1, 2, 3, 4]⟩ ⟨[0], []⟩
    (Or.inr (by simp [NDArr.size]))

end RAG
